import Mathlib

/-!
Verification of the rollback-history core of `bevy_rewind`.

The development shallowly embeds the three layers of the temporal store:

* `BlobDeque`        — the raw ring buffer (`history/blob_deque.rs`); byte
  storage is abstracted to the logical sequence of stored values, while the
  `capacity`/`len`/`start` bookkeeping follows the source field by field.
* `SparseBlobDeque`  — the sparse temporal index (`history/sparse_blob_deque.rs`),
  with its 64-bit presence mask modelled as a `Nat` kept below `2 ^ 64`.
* `ComponentHistory` — the per-attribute history (`history/component_history.rs`)
  with the removed mask and absolute-tick arithmetic.

All u64 bit manipulation from the source (`wrapping_shl`, `wrapping_shr`,
`count_ones`, `trailing_zeros`, `leading_zeros`, `!`) is modelled on `Nat` with
explicit `% 2 ^ 64` where the source wraps.  Machine-integer functions that
Rust defines by iteration on the 64 bits are given fuel-based structural
definitions so that every definition evaluates by `decide`/`rfl`.
-/

namespace BevyRewind

/-- Bitwise complement on u64: for `n < 2 ^ 64` this is `!n`. -/
def not64 (n : Nat) : Nat := (2 ^ 64 - 1) - n % 2 ^ 64

/-- `u64::wrapping_shl`: the shift amount is taken mod 64, the result mod 2⁶⁴. -/
def wshl64 (a s : Nat) : Nat := ((a % 2 ^ 64) <<< (s % 64)) % 2 ^ 64

/-- `u64::wrapping_shr`: the shift amount is taken mod 64. -/
def wshr64 (a s : Nat) : Nat := (a % 2 ^ 64) >>> (s % 64)

/-- Fuel-driven population count; `f` bits of `n` are inspected. -/
def countOnesF : Nat → Nat → Nat
  | 0, _ => 0
  | f + 1, n => n % 2 + countOnesF f (n / 2)

/-- `u64::count_ones`, correct for all `n < 2 ^ 64`. -/
def countOnes (n : Nat) : Nat := countOnesF 64 n

/-- Fuel-driven trailing-zero count (`t = fuel` for `n = 0`). -/
def tzF : Nat → Nat → Nat
  | 0, _ => 0
  | f + 1, n => if n % 2 = 1 then 0 else tzF f (n / 2) + 1

/-- `u64::trailing_zeros`, correct for all `n < 2 ^ 64` (64 on zero). -/
def trailing_zeros64 (n : Nat) : Nat := tzF 64 n

/-- Fuel-driven bit length (position of the highest set bit plus one). -/
def bitLenF : Nat → Nat → Nat
  | 0, _ => 0
  | f + 1, n => if n = 0 then 0 else bitLenF f (n / 2) + 1

/-- `u64::leading_zeros`, correct for all `n < 2 ^ 64` (64 on zero). -/
def leading_zeros64 (n : Nat) : Nat := 64 - bitLenF 64 n

/-- Rust's `.min` on unsigned integers, kept as its literal conditional so
proofs control its unfolding. -/
def rmin (a b : Nat) : Nat := if a ≤ b then a else b

/-- The raw ring buffer of `history/blob_deque.rs`, for items of type `V`
(the non-zero-size layout branch: every claim concerns real payloads).
`data` is the logical content, front first; physical byte offsets are
abstracted away but `start` is tracked exactly as the source does. -/
structure BlobDeque (V : Type) where
  capacity : Nat
  len : Nat
  start : Nat
  data : List V
  deriving Repr, DecidableEq

namespace BlobDeque

variable {V : Type}

/-- `BlobDeque::get`: bounds-checked by current `len`. -/
def get (b : BlobDeque V) (i : Nat) : Option V :=
  if b.len < i + 1 then none else b.data[i]?

/-- `BlobDeque::get_mut` followed by a write through the pointer. -/
def set_item (b : BlobDeque V) (i : Nat) (v : V) : BlobDeque V :=
  if b.len < i + 1 then b else { b with data := b.data.set i v }

/-- `BlobDeque::drop_front`: no-op on empty, else drops the oldest slot. -/
def drop_front (b : BlobDeque V) : BlobDeque V :=
  if b.len = 0 then b
  else { b with start := (b.start + 1) % b.capacity, len := b.len - 1,
                data := b.data.tail }

/-- Iterated `drop_front`. -/
def drop_front_n (b : BlobDeque V) : Nat → BlobDeque V
  | 0 => b
  | n + 1 => b.drop_front.drop_front_n n

/-- `BlobDeque::drop_back`: no-op on empty, else drops the newest slot. -/
def drop_back (b : BlobDeque V) : BlobDeque V :=
  if b.len = 0 then b
  else { b with len := b.len - 1, data := b.data.dropLast }

/-- Iterated `drop_back`. -/
def drop_back_n (b : BlobDeque V) : Nat → BlobDeque V
  | 0 => b
  | n + 1 => b.drop_back.drop_back_n n

/-- `BlobDeque::append` (via `new_ptr`): evicts the oldest slot when full,
then writes the new value into the newest slot. -/
def append (b : BlobDeque V) (v : V) : BlobDeque V :=
  let b' :=
    if b.len = b.capacity then
      { b with len := b.len - 1, start := (b.start + 1) % b.capacity,
               data := b.data.tail }
    else b
  { b' with len := b'.len + 1, data := b'.data ++ [v] }

/-- `BlobDeque::insert` (via `new_ptr_at`).  Returns `none` and leaves the
buffer untouched when it is full or `at > len`; otherwise opens a gap at the
logical position (`start` is only adjusted when inserting at position 0, as
in the source) and writes the value there. -/
def insert (b : BlobDeque V) (at' : Nat) (v : V) : Option Unit × BlobDeque V :=
  if b.len = b.capacity ∨ b.len < at' then (none, b)
  else
    let b' :=
      if at' = b.len then b
      else if at' = 0 then
        { b with start := if b.start = 0 then b.capacity - 1 else b.start - 1 }
      else b
    (some (), { b' with len := b'.len + 1, data := b'.data.insertIdx at' v })

/-- `BlobDeque::resize`: drops the `lost` oldest items when shrinking, copies
the retained run into a fresh allocation and resets `start` to 0. -/
def resize (b : BlobDeque V) (cap : Nat) : BlobDeque V :=
  if cap = b.capacity then b
  else
    let lost := b.len - cap
    let b' :=
      if 0 < lost then
        { b with len := b.len - lost, start := b.start + lost,
                 data := b.data.drop lost }
      else b
    { b' with capacity := cap, start := 0 }

/-- `BlobDeque::clear`: drops all live slots, keeps the allocation. -/
def clear (b : BlobDeque V) : BlobDeque V :=
  { b with len := 0, start := 0, data := [] }

end BlobDeque

/-- The sparse temporal index of `history/sparse_blob_deque.rs`. -/
structure SparseBlobDeque (V : Type) where
  mask : Nat
  len : Nat
  capacity : Nat
  items : BlobDeque V
  deriving Repr, DecidableEq

namespace SparseBlobDeque

variable {V : Type}

/-- The freshly constructed state produced by `SparseBlobDeque::new` once the
capacity guard has passed. -/
def fresh (cap : Nat) : SparseBlobDeque V :=
  { mask := 0, len := 0, capacity := cap,
    items := { capacity := 1, len := 0, start := 0, data := [] } }

/-- `SparseBlobDeque::new`: panics (`none`) unless the capacity lies in
`1..=64`. -/
def new (cap : Nat) : Option (SparseBlobDeque V) :=
  if 1 ≤ cap ∧ cap ≤ 64 then some (fresh cap) else none

/-- `SparseBlobDeque::stored_items`. -/
def stored_items (s : SparseBlobDeque V) : Nat := s.items.len

/-- `SparseBlobDeque::get`: `none` when out of range or the presence bit is
clear; otherwise a population-count lookup into the ring buffer. -/
def get (s : SparseBlobDeque V) (index : Nat) : Option V :=
  if s.len ≤ index then none
  else
    let indexBit := 1 <<< (s.len - 1 - index)
    if s.mask &&& indexBit = 0 then none
    else
      let searchMask := not64 (indexBit - 1)
      let itemIndex := countOnes (s.mask &&& searchMask) - 1
      s.items.get itemIndex

/-- `SparseBlobDeque::append`: always consumes one logical slot, evicting the
oldest when at capacity; a `some` payload grows the ring buffer lazily by one
slot and sets the newest presence bit. -/
def append (s : SparseBlobDeque V) (v? : Option V) : SparseBlobDeque V :=
  let s' :=
    if s.len = s.capacity then
      let indexBit := 1 <<< (s.len - 1)
      let items := if s.mask &&& indexBit ≠ 0 then s.items.drop_front else s.items
      { s with items := items, mask := s.mask &&& not64 indexBit, len := s.len - 1 }
    else s
  let mask := (s'.mask <<< 1) % 2 ^ 64
  match v? with
  | some v =>
      let items :=
        if s'.items.capacity = s'.items.len ∧ s'.items.capacity ≠ s'.capacity then
          s'.items.resize (s'.items.capacity + 1)
        else s'.items
      { s' with items := items.append v, mask := mask ||| 1, len := s'.len + 1 }
  | none => { s' with mask := mask, len := s'.len + 1 }

/-- `SparseBlobDeque::extend_front` (`n` is truncated to u8 by the source). -/
def extend_front (s : SparseBlobDeque V) (n : Nat) : SparseBlobDeque V :=
  { s with len := s.len + rmin (n % 256) (s.capacity - s.len) }

/-- `SparseBlobDeque::clear`. -/
def clear (s : SparseBlobDeque V) : SparseBlobDeque V :=
  { s with items := s.items.clear, mask := 0, len := 0 }

/-- `SparseBlobDeque::extend_back`: appends `n` empty logical slots at the
newest end, dropping physical values whose bits fall off the oldest end. -/
def extend_back (s : SparseBlobDeque V) (n : Nat) : SparseBlobDeque V :=
  if s.capacity ≤ n then
    { s with items := s.items.clear, mask := 0, len := s.capacity }
  else
    let searchMask := wshl64 ((1 <<< n) - 1) (s.capacity - n)
    let ones := countOnes (s.mask &&& searchMask)
    { s with items := s.items.drop_front_n ones,
             mask := wshl64 (s.mask &&& not64 searchMask) n,
             len := rmin (s.len + n) s.capacity }

/-- `SparseBlobDeque::trim_back`: drops the `n` newest logical slots. -/
def trim_back (s : SparseBlobDeque V) (n : Nat) : SparseBlobDeque V :=
  if s.len ≤ n then s.clear
  else
    let searchMask := (1 <<< n) - 1
    let itemsToDrop := countOnes (s.mask &&& searchMask)
    { s with items := s.items.drop_back_n itemsToDrop,
             mask := wshr64 s.mask n,
             len := s.len - n }

/-- `SparseBlobDeque::replace`: overwrite the slot at a logical index,
dropping a previous physical value in place or inserting a new one at the
population-count position.  The source unwraps the inner `insert`; in the
model a failing insert (unreachable from consistent states) leaves the ring
buffer unchanged. -/
def replace (s : SparseBlobDeque V) (index : Nat) (v : V) : SparseBlobDeque V :=
  if s.len ≤ index then s
  else
    let indexBit := 1 <<< (s.len - 1 - index)
    let searchMask := not64 (indexBit - 1)
    let ones := countOnes (s.mask &&& searchMask)
    if s.mask &&& indexBit ≠ 0 then
      { s with items := s.items.set_item (ones - 1) v }
    else
      let items :=
        if s.items.len = s.items.capacity then
          s.items.resize (s.items.capacity + 1)
        else s.items
      if s.mask &&& not64 searchMask = 0 then
        { s with mask := s.mask ||| indexBit, items := items.append v }
      else
        { s with mask := s.mask ||| indexBit, items := (items.insert ones v).2 }

end SparseBlobDeque

/-- `TickData`: the result of a point-in-time lookup. -/
inductive TickData (V : Type) where
  | Value (v : V)
  | Removed
  | Missing
  deriving Repr, DecidableEq

/-- The per-attribute history of `history/component_history.rs`. -/
structure ComponentHistory (V : Type) where
  removed_mask : Nat
  list : SparseBlobDeque V
  last_tick : Nat
  deriving Repr, DecidableEq

namespace ComponentHistory

variable {V : Type}

/-- `ComponentHistory::from_component` / `from_type`: a fresh history. -/
def fresh (cap : Nat) : ComponentHistory V :=
  { removed_mask := 0, list := SparseBlobDeque.fresh cap, last_tick := 0 }

/-- `ComponentHistory::len`. -/
def len (h : ComponentHistory V) : Nat := h.list.len

/-- `ComponentHistory::get`: exact-tick lookup. -/
def get (h : ComponentHistory V) (tick : Nat) : TickData V :=
  if h.last_tick < tick then .Missing
  else
    let ago := h.last_tick - tick
    if h.list.len ≤ ago then .Missing
    else
      let index := h.list.len - 1 - ago
      let indexBit := 1 <<< ago
      if h.removed_mask &&& indexBit ≠ 0 then .Removed
      else
        match h.list.get index with
        | some v => .Value v
        | none => .Missing

/-- `ComponentHistory::get_latest`: nearest known fact at or before a tick. -/
def get_latest (h : ComponentHistory V) (tick : Nat) : TickData V :=
  let ago := h.last_tick - tick
  if h.list.len ≤ ago then .Missing
  else
    let searchMask := not64 ((1 <<< ago) - 1)
    let removed_ago := trailing_zeros64 (h.removed_mask &&& searchMask)
    let item_ago := trailing_zeros64 (h.list.mask &&& searchMask)
    if h.list.len < removed_ago ∧ h.list.len < item_ago then .Missing
    else if removed_ago ≤ item_ago then .Removed
    else
      let index := h.list.len - 1 - item_ago
      match h.list.get index with
      | some v => .Value v
      | none => .Missing

/-- `ComponentHistory::empty_after`: trailing empty slots after a tick. -/
def empty_after (h : ComponentHistory V) (tick : Nat) : Nat :=
  if h.list.len = 0 then 0
  else if h.last_tick ≤ tick then 64
  else
    let ago := rmin (h.last_tick - tick) (h.list.len - 1)
    let searchMask := if 64 ≤ ago then 2 ^ 64 - 1 else (1 <<< ago) - 1
    let empty := (h.list.mask ||| h.removed_mask) &&& searchMask
    leading_zeros64 empty - (64 - ago)

/-- `ComponentHistory::fill_gaps`: materialise the `tick - 1 - last_tick`
missing slots between the window and a future write, relocating the newest
pre-gap fact when the gap would push everything (or the only fact) out. -/
def fill_gaps (h : ComponentHistory V) (tick : Nat) : ComponentHistory V :=
  if h.list.len = 0 ∨ tick ≤ h.last_tick + 1 then h
  else
    let gap := tick - 1 - h.last_tick
    if h.list.capacity ≤ gap then
      if h.list.stored_items = 0 ∧ h.removed_mask = 0 then
        { h with list := h.list.extend_back (rmin gap h.list.capacity),
                 last_tick := h.last_tick + gap }
      else
        let newest_item := trailing_zeros64 h.list.mask
        let newest_remove := trailing_zeros64 h.removed_mask
        let newest_bit := rmin newest_item newest_remove
        let moved :=
          if newest_bit ≠ 0 then
            let bits_to_swap := (1 <<< newest_bit) ||| 1
            if newest_item < newest_remove then
              ({ h.list with mask := h.list.mask ^^^ bits_to_swap }, h.removed_mask)
            else (h.list, 1)
          else (h.list, h.removed_mask)
        let cap_mask :=
          if h.list.capacity < 64 then (1 <<< h.list.capacity) - 1 else 2 ^ 64 - 1
        let n := h.list.capacity - 1
        { h with list := moved.1.extend_back n,
                 removed_mask := wshl64 moved.2 n &&& cap_mask,
                 last_tick := h.last_tick + gap }
    else
      let moved :=
        if h.list.capacity < h.list.len + gap then
          let new_first := h.list.len + gap - h.list.capacity
          let retained := h.list.len - new_first
          let searchMask := 1 <<< (retained - 1)
          let has_value :=
            (h.removed_mask &&& searchMask) ||| (h.list.mask &&& searchMask) ≠ 0
          if ¬ has_value then
            let item_ago := trailing_zeros64 (wshr64 h.list.mask retained)
            let removed_ago := trailing_zeros64 (wshr64 h.removed_mask retained)
            if item_ago < 64 ∨ removed_ago < 64 then
              let to_move := rmin item_ago removed_ago + 1
              let bits_to_swap :=
                (1 <<< (retained - 1)) ||| (1 <<< (retained - 1 + to_move))
              if item_ago < removed_ago then
                ({ h.list with mask := h.list.mask ^^^ bits_to_swap }, h.removed_mask)
              else (h.list, h.removed_mask ^^^ bits_to_swap)
            else (h.list, h.removed_mask)
          else (h.list, h.removed_mask)
        else (h.list, h.removed_mask)
      { h with list := moved.1.extend_back gap,
               removed_mask := wshl64 moved.2 gap,
               last_tick := h.last_tick + gap }

/-- `ComponentHistory::trim_front`: before evicting the oldest slot of a full
window, relocate the next fact into the slot that will become the oldest, so
a valid lookup answer survives. -/
def trim_front (h : ComponentHistory V) : ComponentHistory V :=
  let searchMask := 1 <<< (h.list.len - 2)
  let has_value :=
    (h.removed_mask &&& searchMask) ||| (h.list.mask &&& searchMask) ≠ 0
  if ¬ has_value then
    let retained := h.list.len - 1
    let bits_to_swap := 3 <<< (retained - 1)
    if h.list.mask &&& (searchMask <<< 1) ≠ 0 then
      { h with list := { h.list with mask := h.list.mask ^^^ bits_to_swap } }
    else if h.removed_mask &&& (searchMask <<< 1) ≠ 0 then
      { h with removed_mask := h.removed_mask ^^^ bits_to_swap }
    else h
  else h

/-- `ComponentHistory::write`. -/
def write (h₀ : ComponentHistory V) (tick : Nat) (v : V) : ComponentHistory V :=
  let h := h₀.fill_gaps tick
  if h.list.len ≠ 0 ∧ tick ≤ h.last_tick then
    let ago := h.last_tick - tick
    if h.list.capacity ≤ ago then h
    else
      let list :=
        if h.list.len ≤ ago then h.list.extend_front (ago - (h.list.len - 1))
        else h.list
      { h with list := list.replace (list.len - 1 - ago) v }
  else
    let h' := if h.list.capacity = h.list.len then h.trim_front else h
    { h' with removed_mask := wshl64 h'.removed_mask 1,
              list := h'.list.append (some v),
              last_tick := tick }

/-- `ComponentHistory::mark_removed`. -/
def mark_removed (h₀ : ComponentHistory V) (tick : Nat) : ComponentHistory V :=
  if h₀.list.len ≠ 0 ∧ tick ≤ h₀.last_tick then
    let ago := h₀.last_tick - tick
    if h₀.list.capacity ≤ ago then h₀
    else
      let list :=
        if h₀.list.len ≤ ago then h₀.list.extend_front (ago - (h₀.list.len - 1))
        else h₀.list
      { h₀ with list := list, removed_mask := h₀.removed_mask ||| (1 <<< ago) }
  else
    let h := h₀.fill_gaps tick
    let h' := if h.list.capacity = h.list.len then h.trim_front else h
    { h' with removed_mask := wshl64 h'.removed_mask 1 ||| 1,
              list := h'.list.append none,
              last_tick := tick }

/-- `ComponentHistory::clean`: drop everything strictly newer than
`retain_until`. -/
def clean (h : ComponentHistory V) (retain_until : Nat) : ComponentHistory V :=
  if h.last_tick ≤ retain_until then h
  else
    let to_drop := h.last_tick - retain_until
    if h.list.len ≤ to_drop then
      { h with list := h.list.clear, last_tick := retain_until }
    else
      { h with removed_mask := wshr64 h.removed_mask to_drop,
               list := h.list.trim_back to_drop,
               last_tick := h.last_tick - to_drop }

/-- `ComponentHistory::keep_first_item`. -/
def keep_first_item (h : ComponentHistory V) : ComponentHistory V :=
  if h.list.stored_items = 0 then h
  else
    let zeros := leading_zeros64 h.list.mask
    let ago := 63 - zeros
    h.clean (h.last_tick - ago)

end ComponentHistory

/-- `RollbackFrames` (`lib.rs`): the configured maximum rollback frame count,
clamped by the constructor.  The source field is a `u8`. -/
structure RollbackFrames where
  val : Nat
  deriving Repr, DecidableEq

/-- `RollbackFrames::new`: warns and clamps to at most 60 frames. -/
def RollbackFrames.new (frames : Nat) : RollbackFrames :=
  ⟨rmin frames 60⟩

/-- `RollbackFrames::history_size` = configured frames + 2. -/
def RollbackFrames.history_size (r : RollbackFrames) : Nat := r.val + 2

/-- The mask whose set bits are exactly the elements of `es` (when `es` has no
duplicates): used to describe presence masks of reachable histories. -/
def maskOf : List Nat → Nat
  | [] => 0
  | e :: es => 2 ^ e + maskOf es

/-- The structural consistency of a `SparseBlobDeque`: the mask fits in the
tracked window, the number of set presence bits equals the number of stored
items, and the ring-buffer bookkeeping is coherent. -/
def SparseBlobDeque.WF {V : Type} (s : SparseBlobDeque V) : Prop :=
  s.mask < 2 ^ s.len ∧ countOnes s.mask = s.items.len ∧ s.len ≤ s.capacity ∧
  s.capacity ≤ 64 ∧ 1 ≤ s.capacity ∧ s.items.data.length = s.items.len ∧
  s.items.len ≤ s.items.capacity

/-- States of the sparse index reachable from its constructor through the
mutating operations. -/
inductive SparseBlobDeque.Reach {V : Type} : SparseBlobDeque V → Prop where
  | new (cap : Nat) : 1 ≤ cap → cap ≤ 64 → Reach (SparseBlobDeque.fresh cap)
  | append (s : SparseBlobDeque V) (v? : Option V) : Reach s → Reach (s.append v?)
  | extend_front (s : SparseBlobDeque V) (n : Nat) : Reach s → Reach (s.extend_front n)
  | extend_back (s : SparseBlobDeque V) (n : Nat) : Reach s → Reach (s.extend_back n)
  | trim_back (s : SparseBlobDeque V) (n : Nat) : Reach s → Reach (s.trim_back n)
  | replace (s : SparseBlobDeque V) (i : Nat) (v : V) : Reach s → Reach (s.replace i v)
  | clear (s : SparseBlobDeque V) : Reach s → Reach s.clear

/-! ### Definitions for the out-of-order convergence and round-trip claims -/

/-- Insert a `(tick, value)` pair into a tick-sorted association list, keeping
it sorted (new pair goes before the first strictly larger tick). -/
def insertPair {V : Type} (p : Nat × V) : List (Nat × V) → List (Nat × V)
  | [] => [p]
  | q :: qs => if p.1 < q.1 then p :: q :: qs else q :: insertPair p qs

/-- Insertion sort of `(tick, value)` pairs by tick. -/
def sortPairs {V : Type} (P : List (Nat × V)) : List (Nat × V) :=
  P.foldl (fun acc p => insertPair p acc) []

/-- The tick of the first pair (0 on the empty list). -/
def firstTick {V : Type} : List (Nat × V) → Nat
  | [] => 0
  | p :: _ => p.1

/-- The tick of the last pair (0 on the empty list). -/
def lastTick {V : Type} : List (Nat × V) → Nat
  | [] => 0
  | [p] => p.1
  | _ :: q :: qs => lastTick (q :: qs)

/-- Apply `ComponentHistory.write` for each pair in order. -/
def writeAll {V : Type} (h : ComponentHistory V) : List (Nat × V) → ComponentHistory V
  | [] => h
  | p :: ps => writeAll (h.write p.1 p.2) ps

/-- The observable part of `SparseBlobDeque.get`, as a function of the fields
it reads. -/
def sbdGetObs {V : Type} (len mask ilen : Nat) (data : List V) (index : Nat) :
    Option V :=
  if len ≤ index then none
  else
    let indexBit := 1 <<< (len - 1 - index)
    if mask &&& indexBit = 0 then none
    else
      let searchMask := not64 (indexBit - 1)
      let itemIndex := countOnes (mask &&& searchMask) - 1
      if ilen < itemIndex + 1 then none else data[itemIndex]?

/-- The observable part of `ComponentHistory.get`, as a function of the fields
it reads: `get` factors through this, so two histories agreeing on these
fields agree on every lookup. -/
def getObs {V : Type} (last len rm mask ilen : Nat) (data : List V)
    (tick : Nat) : TickData V :=
  if last < tick then .Missing
  else
    let ago := last - tick
    if len ≤ ago then .Missing
    else
      let index := len - 1 - ago
      let indexBit := 1 <<< ago
      if rm &&& indexBit ≠ 0 then .Removed
      else
        match sbdGetObs len mask ilen data index with
        | some v => .Value v
        | none => .Missing

/-- The canonical shape of a history obtained by writing exactly the pairs of
the sorted list `L` (in any order) into a fresh history of capacity `cap`. -/
structure IsCanon {V : Type} (cap : Nat) (L : List (Nat × V))
    (h : ComponentHistory V) : Prop where
  hne : L ≠ []
  hsort : List.Pairwise (fun p q : Nat × V => p.1 < q.1) L
  hcap1 : 1 ≤ cap
  hcap64 : cap ≤ 64
  hspan : lastTick L - firstTick L < cap
  hlast : h.last_tick = lastTick L
  hlen : h.list.len = lastTick L - firstTick L + 1
  hrm : h.removed_mask = 0
  hcap : h.list.capacity = cap
  hmask : h.list.mask = maskOf (L.map fun p => lastTick L - p.1)
  hdata : h.list.items.data = L.map Prod.snd
  hilen : h.list.items.len = L.length
  hicap : h.list.items.len ≤ h.list.items.capacity

theorem rmin_le_left (a b : Nat) : rmin a b ≤ a := by
  unfold rmin; split <;> omega

theorem rmin_le_right (a b : Nat) : rmin a b ≤ b := by
  unfold rmin; split <;> omega

theorem rmin_eq_left {a b : Nat} (h : a ≤ b) : rmin a b = a := by
  unfold rmin; rw [if_pos h]

theorem rmin_eq_right {a b : Nat} (h : b ≤ a) : rmin a b = b := by
  unfold rmin; split <;> omega

theorem rmin_choice (a b : Nat) : rmin a b = a ∨ rmin a b = b := by
  unfold rmin; split <;> simp

/-! ### Arithmetic facts about the u64 helpers -/

theorem countOnesF_zero : ∀ f, countOnesF f 0 = 0
  | 0 => rfl
  | f + 1 => by simp [countOnesF, countOnesF_zero f]

theorem countOnesF_of_lt : ∀ f g, f ≤ g → ∀ m, m < 2 ^ f → countOnesF g m = countOnesF f m := by
  intro f
  induction f with
  | zero =>
    intro g _ m hm
    interval_cases m
    exact countOnesF_zero g
  | succ f ih =>
    intro g hg m hm
    obtain ⟨g, rfl⟩ : ∃ g', g = g' + 1 := ⟨g - 1, by omega⟩
    show m % 2 + countOnesF g (m / 2) = m % 2 + countOnesF f (m / 2)
    rw [ih g (by omega) (m / 2) (by omega)]

theorem countOnes_eq_rec {m : Nat} (hm : m < 2 ^ 64) :
    countOnes m = m % 2 + countOnes (m / 2) := by
  show countOnesF 64 m = m % 2 + countOnesF 64 (m / 2)
  show m % 2 + countOnesF 63 (m / 2) = m % 2 + countOnesF 64 (m / 2)
  rw [countOnesF_of_lt 63 64 (by omega) (m / 2) (by omega)]

theorem countOnesF_two_pow : ∀ f e, e < f → countOnesF f (2 ^ e) = 1 := by
  intro f
  induction f with
  | zero => omega
  | succ f ih =>
    intro e he
    match e with
    | 0 => simpa [countOnesF] using countOnesF_zero f
    | e + 1 =>
      have h2 : 2 ^ (e + 1) = 2 ^ e * 2 := by ring
      show 2 ^ (e + 1) % 2 + countOnesF f (2 ^ (e + 1) / 2) = 1
      rw [h2, Nat.mul_mod_left, Nat.mul_div_cancel _ (by omega)]
      simpa using ih e (by omega)

theorem countOnes_two_pow {e : Nat} (he : e < 64) : countOnes (2 ^ e) = 1 :=
  countOnesF_two_pow 64 e he

theorem countOnesF_split : ∀ f b x, b &&& x = b →
    countOnesF f x = countOnesF f b + countOnesF f (x ^^^ b) := by
  intro f
  induction f with
  | zero => intro b x _; rfl
  | succ f ih =>
    intro b x hb
    have hmod : b % 2 = 1 → x % 2 = 1 := by
      intro h1
      by_contra h2
      have hx0 : x % 2 = 0 := by omega
      have := congrArg (· % 2) hb
      simp only at this
      rcases Nat.eq_zero_or_pos ((b &&& x) % 2) with h | h
      · omega
      · have : (b &&& x) % 2 = 1 := by omega
        rw [Nat.and_mod_two_eq_one] at this
        omega
    have hand : (b &&& x) % 2 = b % 2 := by rw [hb]
    have hx2 := Nat.mod_two_eq_zero_or_one x
    have hb2 := Nat.mod_two_eq_zero_or_one b
    have hxor : (x ^^^ b) % 2 = x % 2 - b % 2 := by
      rcases hx2 with hx | hx <;> rcases hb2 with hbb | hbb
      · have : ¬ ((x ^^^ b) % 2 = 1) := by
          rw [Nat.xor_mod_two_eq_one]; omega
        omega
      · exact absurd (hmod hbb) (by omega)
      · have : (x ^^^ b) % 2 = 1 := by rw [Nat.xor_mod_two_eq_one]; omega
        omega
      · have : ¬ ((x ^^^ b) % 2 = 1) := by rw [Nat.xor_mod_two_eq_one]; omega
        omega
    have hdiv : b / 2 &&& x / 2 = b / 2 := by
      rw [← Nat.and_div_two, hb]
    show x % 2 + countOnesF f (x / 2) =
      (b % 2 + countOnesF f (b / 2)) + ((x ^^^ b) % 2 + countOnesF f ((x ^^^ b) / 2))
    rw [Nat.xor_div_two, ih (b / 2) (x / 2) hdiv, hxor]
    have : b % 2 ≤ x % 2 := by
      rcases hb2 with h | h
      · omega
      · have := hmod h; omega
    omega

theorem countOnes_split {b x : Nat} (hb : b &&& x = b) :
    countOnes x = countOnes b + countOnes (x ^^^ b) :=
  countOnesF_split 64 b x hb

theorem and_sub_self (x y : Nat) : (x &&& y) &&& x = x &&& y := by
  rw [Nat.and_comm (x &&& y) x, ← Nat.and_assoc, Nat.and_self]

theorem countOnes_and_le (x y : Nat) : countOnes (x &&& y) ≤ countOnes x := by
  have := @countOnes_split (x &&& y) x (and_sub_self x y)
  omega

theorem testBit_not64 {n : Nat} (hn : n < 2 ^ 64) (i : Nat) :
    (not64 n).testBit i = (decide (i < 64) && !(n.testBit i)) := by
  have : not64 n = 2 ^ 64 - (n + 1) := by
    unfold not64
    rw [Nat.mod_eq_of_lt hn]
    omega
  rw [this, Nat.testBit_two_pow_sub_succ hn]

theorem not64_lt (n : Nat) : not64 n < 2 ^ 64 := by
  unfold not64
  omega

theorem not64_not64 {n : Nat} (hn : n < 2 ^ 64) : not64 (not64 n) = n := by
  apply Nat.eq_of_testBit_eq
  intro i
  rw [testBit_not64 (not64_lt n), testBit_not64 hn]
  by_cases h : i < 64
  · simp [h]
  · have hbit : n.testBit i = false :=
      Nat.testBit_lt_two_pow
        (Nat.lt_of_lt_of_le hn (Nat.pow_le_pow_right (by omega) (by omega)))
    simp [h, hbit]

theorem add_two_pow_eq_lor : ∀ e m, m.testBit e = false → 2 ^ e + m = 2 ^ e ||| m := by
  intro e
  induction e with
  | zero =>
    intro m hm
    rw [Nat.testBit_zero] at hm
    have hm0 : m % 2 = 0 := by
      rcases Nat.mod_two_eq_zero_or_one m with h | h
      · exact h
      · simp [h] at hm
    have h1 : (2 ^ 0 ||| m) % 2 = 1 := by
      rw [Nat.or_mod_two_eq_one]
      left; rfl
    have h2 : (2 ^ 0 ||| m) / 2 = m / 2 := by
      rw [Nat.or_div_two]
      norm_num
    have := Nat.div_add_mod (2 ^ 0 ||| m) 2
    omega
  | succ e ih =>
    intro m hm
    rw [Nat.testBit_add_one] at hm
    have hrec := ih (m / 2) hm
    have h1 : (2 ^ (e + 1) ||| m) % 2 = m % 2 := by
      rcases Nat.mod_two_eq_zero_or_one m with h | h
      · rw [h]
        by_contra hne
        have : (2 ^ (e + 1) ||| m) % 2 = 1 := by omega
        rw [Nat.or_mod_two_eq_one] at this
        rcases this with h' | h'
        · rw [Nat.pow_succ, Nat.mul_mod_left] at h'
          omega
        · omega
      · rw [h, Nat.or_mod_two_eq_one]
        right; exact h
    have h2 : (2 ^ (e + 1) ||| m) / 2 = 2 ^ e ||| m / 2 := by
      rw [Nat.or_div_two, Nat.pow_succ, Nat.mul_div_cancel _ (by omega : 0 < 2)]
    have h3 := Nat.div_add_mod (2 ^ (e + 1) ||| m) 2
    have h4 := Nat.div_add_mod m 2
    have h5 : 2 ^ (e + 1) = 2 * 2 ^ e := by ring
    omega

theorem two_pow_and_lor (e m : Nat) (_hm : m.testBit e = false) :
    2 ^ e &&& (2 ^ e ||| m) = 2 ^ e := by
  apply Nat.eq_of_testBit_eq
  intro i
  rw [Nat.testBit_and, Nat.testBit_or, Nat.testBit_two_pow]
  by_cases h : e = i
  · subst h; simp
  · simp [Ne.symm h, h]

theorem lor_xor_two_pow (e m : Nat) (hm : m.testBit e = false) :
    (2 ^ e ||| m) ^^^ 2 ^ e = m := by
  apply Nat.eq_of_testBit_eq
  intro i
  rw [Nat.testBit_xor, Nat.testBit_or, Nat.testBit_two_pow]
  by_cases h : e = i
  · subst h; simp [hm]
  · simp [Ne.symm h, h]

theorem countOnes_lor_two_pow {e m : Nat} (he : e < 64) (hm : m.testBit e = false) :
    countOnes (2 ^ e ||| m) = countOnes m + 1 := by
  have := @countOnes_split (2 ^ e) (2 ^ e ||| m) (two_pow_and_lor e m hm)
  rw [lor_xor_two_pow e m hm, countOnes_two_pow he] at this
  omega

theorem countOnes_add_two_pow {e m : Nat} (he : e < 64) (hm : m.testBit e = false) :
    countOnes (2 ^ e + m) = countOnes m + 1 := by
  rw [add_two_pow_eq_lor e m hm]
  exact countOnes_lor_two_pow he hm

/-! ### Masks built from lists of distinct bit positions -/

theorem maskOf_append : ∀ l₁ l₂ : List Nat, maskOf (l₁ ++ l₂) = maskOf l₁ + maskOf l₂
  | [], _ => by simp [maskOf]
  | e :: tl, l₂ => by simp [maskOf, maskOf_append tl l₂]; omega

theorem testBit_maskOf {es : List Nat} (h : es.Nodup) (k : Nat) :
    (maskOf es).testBit k = decide (k ∈ es) := by
  induction es generalizing k with
  | nil => simp [maskOf]
  | cons e tl ih =>
    rw [List.nodup_cons] at h
    have hbit : (maskOf tl).testBit e = false := by
      rw [ih h.2]
      simpa using h.1
    show (2 ^ e + maskOf tl).testBit k = _
    rw [add_two_pow_eq_lor e _ hbit, Nat.testBit_or, Nat.testBit_two_pow, ih h.2]
    by_cases hk : k = e
    · subst hk; simp
    · simp [hk, Ne.symm hk]

theorem maskOf_lt {es : List Nat} (h : es.Nodup) {b : Nat} (hb : ∀ e ∈ es, e < b) :
    maskOf es < 2 ^ b := by
  apply Nat.lt_pow_two_of_testBit
  intro i hi
  rw [testBit_maskOf h]
  simp only [decide_eq_false_iff_not]
  intro hmem
  exact absurd (hb i hmem) (by omega)

theorem countOnes_maskOf {es : List Nat} (h : es.Nodup) (hb : ∀ e ∈ es, e < 64) :
    countOnes (maskOf es) = es.length := by
  induction es with
  | nil => simp [maskOf]; rfl
  | cons e tl ih =>
    rw [List.nodup_cons] at h
    have hbit : (maskOf tl).testBit e = false := by
      rw [testBit_maskOf h.2]
      simpa using h.1
    show countOnes (2 ^ e + maskOf tl) = tl.length + 1
    rw [countOnes_add_two_pow (hb e (by simp)) hbit,
      ih h.2 (fun x hx => hb x (by simp [hx]))]

theorem maskOf_map_add (es : List Nat) (g : Nat) :
    maskOf (es.map fun e => e + g) = 2 ^ g * maskOf es := by
  induction es with
  | nil => simp [maskOf]
  | cons e tl ih =>
    show 2 ^ (e + g) + maskOf (tl.map fun e => e + g) = _
    rw [ih]
    show 2 ^ (e + g) + 2 ^ g * maskOf tl = 2 ^ g * (2 ^ e + maskOf tl)
    rw [pow_add]
    ring

theorem maskOf_and_high {es : List Nat} (h : es.Nodup) (hb : ∀ e ∈ es, e < 64)
    {a : Nat} (ha : a ≤ 64) :
    maskOf es &&& not64 (2 ^ a - 1) = maskOf (es.filter fun e => a ≤ e) := by
  have hlt : (2 : Nat) ^ a - 1 < 2 ^ 64 := by
    have : (2 : Nat) ^ a ≤ 2 ^ 64 := Nat.pow_le_pow_right (by omega) ha
    have : (0 : Nat) < 2 ^ a := Nat.pos_pow_of_pos a (by omega)
    omega
  apply Nat.eq_of_testBit_eq
  intro i
  rw [Nat.testBit_and, testBit_not64 hlt, testBit_maskOf h,
    testBit_maskOf (h.filter _), Nat.testBit_two_pow_sub_one]
  by_cases hi : i ∈ es
  · have h64 : i < 64 := hb i hi
    by_cases hai : a ≤ i
    · have hna : ¬ i < a := by omega
      simp [hi, hna, h64, List.mem_filter, hai]
    · have hia : i < a := by omega
      simp [hi, hia, List.mem_filter, hai]
  · simp [hi, List.mem_filter]

theorem maskOf_and_low {es : List Nat} (h : es.Nodup) {a : Nat} (_ha : a ≤ 64) :
    maskOf es &&& (2 ^ a - 1) = maskOf (es.filter fun e => e < a) := by
  apply Nat.eq_of_testBit_eq
  intro i
  rw [Nat.testBit_and, testBit_maskOf h, testBit_maskOf (h.filter _),
    Nat.testBit_two_pow_sub_one]
  by_cases hi : i ∈ es
  · by_cases hai : i < a
    · simp [hi, hai, List.mem_filter]
    · simp [hi, hai, List.mem_filter]
  · simp [hi, List.mem_filter]

theorem maskOf_lor_two_pow {es : List Nat} (h : es.Nodup) {e : Nat} (he : e ∉ es) :
    maskOf es ||| 2 ^ e = maskOf (e :: es) := by
  have hbit : (maskOf es).testBit e = false := by
    rw [testBit_maskOf h]
    simpa using he
  show _ = 2 ^ e + maskOf es
  rw [add_two_pow_eq_lor e _ hbit, Nat.lor_comm]

theorem maskOf_perm : ∀ {l₁ l₂ : List Nat}, l₁.Perm l₂ → maskOf l₁ = maskOf l₂ := by
  intro l₁ l₂ hp
  induction hp with
  | nil => rfl
  | cons x _ ih => show 2 ^ x + _ = 2 ^ x + _; rw [ih]
  | swap x y l => show 2 ^ y + (2 ^ x + _) = 2 ^ x + (2 ^ y + _); omega
  | trans _ _ ih₁ ih₂ => rw [ih₁, ih₂]

theorem countOnes_le_of_lt : ∀ f k m, m < 2 ^ k → countOnesF f m ≤ k := by
  intro f
  induction f with
  | zero => intro k m _; exact Nat.zero_le k
  | succ f ih =>
    intro k m hm
    match k with
    | 0 =>
      interval_cases m
      simp [countOnesF, countOnesF_zero]
    | k + 1 =>
      have h1 : m / 2 < 2 ^ k := by
        rw [Nat.div_lt_iff_lt_mul (by omega)]
        calc m < 2 ^ (k + 1) := hm
        _ = 2 ^ k * 2 := by ring
      have h2 := ih k (m / 2) h1
      have h3 : m % 2 ≤ 1 := by omega
      show m % 2 + countOnesF f (m / 2) ≤ k + 1
      omega

theorem countOnes_le {k m : Nat} (hm : m < 2 ^ k) : countOnes m ≤ k :=
  countOnes_le_of_lt 64 k m hm

theorem countOnes_two_mul {m : Nat} (hm : 2 * m < 2 ^ 64) :
    countOnes (2 * m) = countOnes m := by
  rw [countOnes_eq_rec hm, Nat.mul_mod_right, Nat.mul_div_cancel_left _ (by omega)]
  omega

theorem countOnes_mul_pow {m n : Nat} (hm : m * 2 ^ n < 2 ^ 64) :
    countOnes (m * 2 ^ n) = countOnes m := by
  induction n with
  | zero => simp
  | succ n ih =>
    have h1 : m * 2 ^ (n + 1) = 2 * (m * 2 ^ n) := by ring
    have h2 : m * 2 ^ n < 2 ^ 64 := by
      have : m * 2 ^ n ≤ m * 2 ^ (n + 1) :=
        Nat.mul_le_mul_left m (Nat.pow_le_pow_right (by omega) (by omega))
      omega
    rw [h1, countOnes_two_mul (by omega), ih h2]

theorem countOnes_shiftLeft {m n : Nat} (hm : m <<< n < 2 ^ 64) :
    countOnes (m <<< n) = countOnes m := by
  rw [Nat.shiftLeft_eq] at hm ⊢
  exact countOnes_mul_pow hm

theorem xor_and_eq_and_not64 {x y : Nat} (hx : x < 2 ^ 64) (hy : y < 2 ^ 64) :
    x ^^^ (x &&& y) = x &&& not64 y := by
  apply Nat.eq_of_testBit_eq
  intro i
  rw [Nat.testBit_xor, Nat.testBit_and, Nat.testBit_and, testBit_not64 hy]
  by_cases hi : i < 64
  · simp only [hi, decide_True, Bool.true_and]
    cases x.testBit i <;> cases y.testBit i <;> rfl
  · have hxb : x.testBit i = false :=
      Nat.testBit_lt_two_pow
        (Nat.lt_of_lt_of_le hx (Nat.pow_le_pow_right (by omega) (by omega)))
    simp [hxb]

theorem countOnes_and_split {x y : Nat} (hx : x < 2 ^ 64) (hy : y < 2 ^ 64) :
    countOnes x = countOnes (x &&& y) + countOnes (x &&& not64 y) := by
  have h := @countOnes_split (x &&& y) x (and_sub_self x y)
  rw [xor_and_eq_and_not64 hx hy] at h
  exact h

theorem countOnes_shiftRight_add : ∀ (n x : Nat), x < 2 ^ 64 →
    countOnes x = countOnes (x >>> n) + countOnes (x % 2 ^ n) := by
  intro n
  induction n with
  | zero =>
    intro x _
    simp [Nat.shiftRight_zero, Nat.mod_one]
    rfl
  | succ n ih =>
    intro x hx
    have hsh : x >>> n < 2 ^ 64 := by
      rw [Nat.shiftRight_eq_div_pow]
      have : x / 2 ^ n ≤ x := Nat.div_le_self x (2 ^ n)
      omega
    have hsucc : x >>> (n + 1) = (x >>> n) / 2 := Nat.shiftRight_succ x n
    have hrec : countOnes (x >>> n) = (x >>> n) % 2 + countOnes (x >>> (n + 1)) := by
      rw [countOnes_eq_rec hsh, hsucc]
    have hbitdef : (x >>> n) % 2 = (x / 2 ^ n) % 2 := by
      rw [Nat.shiftRight_eq_div_pow]
    have hmod : x % 2 ^ (n + 1) = x % 2 ^ n + 2 ^ n * ((x / 2 ^ n) % 2) :=
      Nat.mod_pow_succ
    have hih := ih x hx
    by_cases hbit : (x / 2 ^ n) % 2 = 1
    · have hn64 : n < 64 := by
        by_contra hc
        have hle : (2 : Nat) ^ 64 ≤ 2 ^ n := Nat.pow_le_pow_right (by omega) (by omega)
        have : x / 2 ^ n = 0 := Nat.div_eq_of_lt (by omega)
        omega
      rw [hbit, Nat.mul_one] at hmod
      have hb2 : (x >>> n) % 2 = 1 := by rw [hbitdef]; exact hbit
      have hmod' : x % 2 ^ (n + 1) = 2 ^ n + x % 2 ^ n := by omega
      have hsmall : (x % 2 ^ n).testBit n = false :=
        Nat.testBit_lt_two_pow (Nat.mod_lt x (Nat.pos_pow_of_pos n (by omega)))
      have hcnt : countOnes (x % 2 ^ (n + 1)) = countOnes (x % 2 ^ n) + 1 := by
        rw [hmod']
        exact countOnes_add_two_pow hn64 hsmall
      omega
    · have hbit0 : (x / 2 ^ n) % 2 = 0 := by omega
      rw [hbit0] at hmod
      simp only [Nat.mul_zero, Nat.add_zero] at hmod
      have hb2 : (x >>> n) % 2 = 0 := by rw [hbitdef]; exact hbit0
      rw [hmod]
      omega

/-! ### Well-formedness of the sparse index and its preservation -/

theorem and_two_pow_cases (x e : Nat) :
    x &&& 2 ^ e = if x.testBit e then 2 ^ e else 0 := by
  apply Nat.eq_of_testBit_eq
  intro i
  rw [Nat.testBit_and, Nat.testBit_two_pow]
  by_cases hb : x.testBit e
  · rw [if_pos hb, Nat.testBit_two_pow]
    by_cases h : e = i
    · subst h; simp [hb]
    · simp [h, Ne.symm h]
  · rw [if_neg hb, Nat.zero_testBit]
    by_cases h : e = i
    · subst h; simp [hb]
    · simp [h, Ne.symm h]

theorem and_two_pow_eq_zero_iff (x e : Nat) :
    x &&& 2 ^ e = 0 ↔ x.testBit e = false := by
  rw [and_two_pow_cases]
  by_cases hb : x.testBit e
  · simp [hb]
  · simp [hb]

theorem and_not64_top {mask len : Nat} (h1 : 1 ≤ len) (h2 : len ≤ 64)
    (hm : mask < 2 ^ len) :
    mask &&& not64 (2 ^ (len - 1)) = mask % 2 ^ (len - 1) := by
  have h2p : (2 : Nat) ^ (len - 1) < 2 ^ 64 :=
    Nat.pow_lt_pow_right (by omega) (by omega)
  apply Nat.eq_of_testBit_eq
  intro i
  rw [Nat.testBit_and, testBit_not64 h2p, Nat.testBit_mod_two_pow,
    Nat.testBit_two_pow]
  by_cases hi : i < len - 1
  · have h64 : i < 64 := by omega
    have hne : ¬ (len - 1 = i) := by omega
    simp [hi, h64, hne]
  · by_cases hie : i = len - 1
    · subst hie
      simp [hi]
    · have hge : len ≤ i := by omega
      have hbit : mask.testBit i = false :=
        Nat.testBit_lt_two_pow
          (Nat.lt_of_lt_of_le hm (Nat.pow_le_pow_right (by omega) hge))
      simp [hi, hbit]

theorem countOnes_split_top {mask len : Nat} (h1 : 1 ≤ len) (h2 : len ≤ 64)
    (hm : mask < 2 ^ len) :
    countOnes mask =
      (if mask.testBit (len - 1) then 1 else 0) +
        countOnes (mask &&& not64 (2 ^ (len - 1))) := by
  have h2p : (2 : Nat) ^ (len - 1) < 2 ^ 64 :=
    Nat.pow_lt_pow_right (by omega) (by omega)
  have hx : mask < 2 ^ 64 :=
    Nat.lt_of_lt_of_le hm (Nat.pow_le_pow_right (by omega) h2)
  have hs := countOnes_and_split hx h2p
  rw [and_two_pow_cases] at hs
  by_cases hb : mask.testBit (len - 1)
  · rw [if_pos hb] at hs
    rw [if_pos hb, hs, countOnes_two_pow (by omega)]
  · rw [if_neg hb] at hs
    rw [if_neg hb, hs]
    have hz : countOnes 0 = 0 := countOnesF_zero 64
    omega

theorem BlobDeque.drop_front_n_spec {V : Type} :
    ∀ (k : Nat) (b : BlobDeque V), k ≤ b.len → b.data.length = b.len →
      (b.drop_front_n k).len = b.len - k ∧
      (b.drop_front_n k).data.length = b.len - k ∧
      (b.drop_front_n k).capacity = b.capacity := by
  intro k
  induction k with
  | zero =>
    intro b _ hd
    refine ⟨rfl, ?_, rfl⟩
    show b.data.length = b.len - 0
    omega
  | succ k ih =>
    intro b hk hd
    have hne : b.len ≠ 0 := by omega
    have hdf : b.drop_front =
        { b with start := (b.start + 1) % b.capacity, len := b.len - 1,
                 data := b.data.tail } := by
      unfold BlobDeque.drop_front
      rw [if_neg hne]
    have hlen' : b.drop_front.len = b.len - 1 := by rw [hdf]
    have hdata' : b.drop_front.data.length = b.len - 1 := by
      rw [hdf]
      show b.data.tail.length = b.len - 1
      rw [List.length_tail]
      omega
    have hcap' : b.drop_front.capacity = b.capacity := by rw [hdf]
    obtain ⟨x1, x2, x3⟩ := ih b.drop_front (by omega) (by omega)
    refine ⟨?_, ?_, ?_⟩
    · show (b.drop_front.drop_front_n k).len = b.len - (k + 1)
      omega
    · show (b.drop_front.drop_front_n k).data.length = b.len - (k + 1)
      omega
    · show (b.drop_front.drop_front_n k).capacity = b.capacity
      rw [x3, hcap']

theorem BlobDeque.drop_back_n_spec {V : Type} :
    ∀ (k : Nat) (b : BlobDeque V), k ≤ b.len → b.data.length = b.len →
      (b.drop_back_n k).len = b.len - k ∧
      (b.drop_back_n k).data.length = b.len - k ∧
      (b.drop_back_n k).capacity = b.capacity := by
  intro k
  induction k with
  | zero =>
    intro b _ hd
    refine ⟨rfl, ?_, rfl⟩
    show b.data.length = b.len - 0
    omega
  | succ k ih =>
    intro b hk hd
    have hne : b.len ≠ 0 := by omega
    have hdb : b.drop_back =
        { b with len := b.len - 1, data := b.data.dropLast } := by
      unfold BlobDeque.drop_back
      rw [if_neg hne]
    have hlen' : b.drop_back.len = b.len - 1 := by rw [hdb]
    have hdata' : b.drop_back.data.length = b.len - 1 := by
      rw [hdb]
      show b.data.dropLast.length = b.len - 1
      rw [List.length_dropLast]
      omega
    have hcap' : b.drop_back.capacity = b.capacity := by rw [hdb]
    obtain ⟨x1, x2, x3⟩ := ih b.drop_back (by omega) (by omega)
    refine ⟨?_, ?_, ?_⟩
    · show (b.drop_back.drop_back_n k).len = b.len - (k + 1)
      omega
    · show (b.drop_back.drop_back_n k).data.length = b.len - (k + 1)
      omega
    · show (b.drop_back.drop_back_n k).capacity = b.capacity
      rw [x3, hcap']

theorem BlobDeque.append_no_evict {V : Type} (b : BlobDeque V) (v : V)
    (h : b.len ≠ b.capacity) :
    b.append v = { b with len := b.len + 1, data := b.data ++ [v] } := by
  unfold BlobDeque.append
  rw [if_neg h]

theorem BlobDeque.resize_grow {V : Type} (b : BlobDeque V) (cap : Nat)
    (h : b.len ≤ cap) (hne : cap ≠ b.capacity) :
    b.resize cap = { b with capacity := cap, start := 0 } := by
  unfold BlobDeque.resize
  rw [if_neg hne]
  have hlost : b.len - cap = 0 := by omega
  simp [hlost]

theorem BlobDeque.insert_success {V : Type} (b : BlobDeque V) (at' : Nat) (v : V)
    (h1 : b.len ≠ b.capacity) (h2 : at' ≤ b.len) :
    ∃ b' : BlobDeque V, b.insert at' v = (some (), b') ∧ b'.len = b.len + 1 ∧
      b'.capacity = b.capacity ∧ b'.data = b.data.insertIdx at' v := by
  unfold BlobDeque.insert
  rw [if_neg (by omega)]
  by_cases hl : at' = b.len
  · rw [if_pos hl]
    exact ⟨_, rfl, rfl, rfl, rfl⟩
  · by_cases h0 : at' = 0
    · rw [if_neg hl, if_pos h0]
      exact ⟨_, rfl, rfl, rfl, rfl⟩
    · rw [if_neg hl, if_neg h0]
      exact ⟨_, rfl, rfl, rfl, rfl⟩

theorem countOnes_zero : countOnes 0 = 0 := countOnesF_zero 64

theorem wshl64_lt (a s : Nat) : wshl64 a s < 2 ^ 64 :=
  Nat.mod_lt _ (by norm_num)

theorem wshl64_eq_shiftLeft {a s : Nat} (ha : a < 2 ^ 64) (hs : s < 64)
    (hb : a <<< s < 2 ^ 64) : wshl64 a s = a <<< s := by
  unfold wshl64
  rw [Nat.mod_eq_of_lt ha, Nat.mod_eq_of_lt hs, Nat.mod_eq_of_lt hb]

theorem wshr64_eq_shiftRight {a s : Nat} (ha : a < 2 ^ 64) (hs : s < 64) :
    wshr64 a s = a >>> s := by
  unfold wshr64
  rw [Nat.mod_eq_of_lt ha, Nat.mod_eq_of_lt hs]

theorem SparseBlobDeque.wf_fresh {V : Type} (cap : Nat) (h1 : 1 ≤ cap)
    (h2 : cap ≤ 64) : (@SparseBlobDeque.fresh V cap).WF := by
  refine ⟨?_, ?_, ?_, ?_, ?_, ?_, ?_⟩
  · show (0 : Nat) < 2 ^ 0
    decide
  · show countOnes 0 = 0
    exact countOnes_zero
  · show (0 : Nat) ≤ cap
    omega
  · exact h2
  · exact h1
  · show ([] : List V).length = 0
    rfl
  · show (0 : Nat) ≤ 1
    omega

theorem SparseBlobDeque.wf_extend_front {V : Type} (s : SparseBlobDeque V)
    (n : Nat) (h : s.WF) : (s.extend_front n).WF := by
  obtain ⟨mask, len, cap, items⟩ := s
  obtain ⟨hm, hcnt, hlc, hc64, hc1, hdl, hic⟩ := h
  have hm : mask < 2 ^ len := hm
  have hlc : len ≤ cap := hlc
  refine ⟨?_, hcnt, ?_, hc64, hc1, hdl, hic⟩
  · show mask < 2 ^ (len + rmin (n % 256) (cap - len))
    calc mask < 2 ^ len := hm
    _ ≤ _ := Nat.pow_le_pow_right (by omega) (Nat.le_add_right len _)
  · show len + rmin (n % 256) (cap - len) ≤ cap
    have := rmin_le_right (n % 256) (cap - len)
    omega

theorem SparseBlobDeque.wf_clear {V : Type} (s : SparseBlobDeque V)
    (h : s.WF) : s.clear.WF := by
  obtain ⟨mask, len, cap, items⟩ := s
  obtain ⟨hm, hcnt, hlc, hc64, hc1, hdl, hic⟩ := h
  refine ⟨?_, ?_, ?_, hc64, hc1, ?_, ?_⟩
  · show (0 : Nat) < 2 ^ 0
    decide
  · show countOnes 0 = items.clear.len
    show countOnes 0 = 0
    exact countOnes_zero
  · show (0 : Nat) ≤ cap
    omega
  · show items.clear.data.length = items.clear.len
    rfl
  · show (0 : Nat) ≤ items.capacity
    omega

theorem testBit_range_mask {n cap : Nat} (hn : n < cap) (hcap : cap ≤ 64)
    (i : Nat) :
    (wshl64 ((1 <<< n) - 1) (cap - n)).testBit i =
      decide (cap - n ≤ i ∧ i < cap) := by
  by_cases hn0 : n = 0
  · subst hn0
    have hz : wshl64 ((1 <<< 0) - 1) (cap - 0) = 0 := by
      simp [wshl64]
    rw [hz, Nat.zero_testBit]
    have : ¬ (cap - 0 ≤ i ∧ i < cap) := by omega
    simp [this]
  · have hn63 : n ≤ 63 := by omega
    have h2n : (1 : Nat) <<< n - 1 = 2 ^ n - 1 := by rw [Nat.one_shiftLeft]
    have hlt : (2 : Nat) ^ n - 1 < 2 ^ 64 := by
      have ha : (2 : Nat) ^ n ≤ 2 ^ 64 := Nat.pow_le_pow_right (by omega) (by omega)
      have hb : (0 : Nat) < 2 ^ n := Nat.pos_pow_of_pos n (by omega)
      omega
    have hs63 : (cap - n) % 64 = cap - n := Nat.mod_eq_of_lt (by omega)
    have hbound : (2 ^ n - 1) <<< (cap - n) < 2 ^ 64 := by
      rw [Nat.shiftLeft_eq]
      have hb : (0 : Nat) < 2 ^ n := Nat.pos_pow_of_pos n (by omega)
      have h1 : (2 ^ n - 1) * 2 ^ (cap - n) < 2 ^ n * 2 ^ (cap - n) :=
        (Nat.mul_lt_mul_right (Nat.pos_pow_of_pos _ (by omega))).mpr (by omega)
      have h2 : (2 : Nat) ^ n * 2 ^ (cap - n) = 2 ^ cap := by
        rw [← pow_add]
        congr 1
        omega
      have h3 : (2 : Nat) ^ cap ≤ 2 ^ 64 := Nat.pow_le_pow_right (by omega) hcap
      omega
    have hw : wshl64 ((1 <<< n) - 1) (cap - n) = (2 ^ n - 1) <<< (cap - n) := by
      unfold wshl64
      rw [h2n, Nat.mod_eq_of_lt hlt, hs63, Nat.mod_eq_of_lt hbound]
    rw [hw, Nat.testBit_shiftLeft, Nat.testBit_two_pow_sub_one]
    by_cases h1 : cap - n ≤ i
    · by_cases h2 : i < cap
      · have h3 : i - (cap - n) < n := by omega
        simp [h1, h2, h3]
      · have h3 : ¬ (i - (cap - n) < n) := by omega
        simp [h1, h2, h3]
    · simp [h1]

theorem SparseBlobDeque.extend_back_spec_ge {V : Type} (s : SparseBlobDeque V)
    (n : Nat) (h : s.capacity ≤ n) :
    s.extend_back n =
      { s with items := s.items.clear, mask := 0, len := s.capacity } := by
  unfold SparseBlobDeque.extend_back
  rw [if_pos h]

theorem SparseBlobDeque.extend_back_spec_lt {V : Type} (s : SparseBlobDeque V)
    (n : Nat) (h : ¬ s.capacity ≤ n) :
    s.extend_back n =
      { s with
        items := s.items.drop_front_n
          (countOnes (s.mask &&& wshl64 ((1 <<< n) - 1) (s.capacity - n))),
        mask := wshl64
          (s.mask &&& not64 (wshl64 ((1 <<< n) - 1) (s.capacity - n))) n,
        len := rmin (s.len + n) s.capacity } := by
  unfold SparseBlobDeque.extend_back
  rw [if_neg h]

theorem extend_back_mask_facts {mask len cap n : Nat}
    (hm : mask < 2 ^ len) (hlc : len ≤ cap) (hc64 : cap ≤ 64)
    (hncap : n < cap) :
    wshl64 (mask &&& not64 (wshl64 ((1 <<< n) - 1) (cap - n))) n =
      (mask &&& not64 (wshl64 ((1 <<< n) - 1) (cap - n))) <<< n ∧
    (mask &&& not64 (wshl64 ((1 <<< n) - 1) (cap - n))) <<< n <
      2 ^ rmin (len + n) cap ∧
    countOnes mask =
      countOnes (mask &&& wshl64 ((1 <<< n) - 1) (cap - n)) +
        countOnes (mask &&& not64 (wshl64 ((1 <<< n) - 1) (cap - n))) := by
  have hsmbit : ∀ i, (wshl64 ((1 <<< n) - 1) (cap - n)).testBit i =
      decide (cap - n ≤ i ∧ i < cap) := testBit_range_mask hncap hc64
  have hsm64 : wshl64 ((1 <<< n) - 1) (cap - n) < 2 ^ 64 := wshl64_lt _ _
  have hm64 : mask < 2 ^ 64 :=
    Nat.lt_of_lt_of_le hm (Nat.pow_le_pow_right (by omega) (by omega))
  have hx1 : mask &&& not64 (wshl64 ((1 <<< n) - 1) (cap - n)) < 2 ^ (cap - n) := by
    apply Nat.lt_pow_two_of_testBit
    intro i hi
    rw [Nat.testBit_and, testBit_not64 hsm64, hsmbit]
    by_cases hicap : i < cap
    · have h1 : cap - n ≤ i ∧ i < cap := by omega
      simp [h1]
    · have hbit : mask.testBit i = false :=
        Nat.testBit_lt_two_pow
          (Nat.lt_of_lt_of_le hm (Nat.pow_le_pow_right (by omega) (by omega)))
      simp [hbit]
  have hx2 : mask &&& not64 (wshl64 ((1 <<< n) - 1) (cap - n)) < 2 ^ len :=
    Nat.lt_of_le_of_lt Nat.and_le_left hm
  have hxshm : (mask &&& not64 (wshl64 ((1 <<< n) - 1) (cap - n))) <<< n <
      2 ^ rmin (len + n) cap := by
    rcases Nat.le_total (len + n) cap with hc | hc
    · rw [rmin_eq_left hc, Nat.shiftLeft_eq, pow_add]
      exact (Nat.mul_lt_mul_right (Nat.pos_pow_of_pos _ (by omega))).mpr hx2
    · rw [rmin_eq_right hc, Nat.shiftLeft_eq]
      have h1 : (mask &&& not64 (wshl64 ((1 <<< n) - 1) (cap - n))) * 2 ^ n <
          2 ^ (cap - n) * 2 ^ n :=
        (Nat.mul_lt_mul_right (Nat.pos_pow_of_pos _ (by omega))).mpr hx1
      have h2 : (2 : Nat) ^ (cap - n) * 2 ^ n = 2 ^ cap := by
        rw [← pow_add, Nat.sub_add_cancel (Nat.le_of_lt hncap)]
      omega
  have hxsh64 : (mask &&& not64 (wshl64 ((1 <<< n) - 1) (cap - n))) <<< n <
      2 ^ 64 :=
    Nat.lt_of_lt_of_le hxshm
      (Nat.pow_le_pow_right (by omega) (Nat.le_trans (rmin_le_right _ _) hc64))
  refine ⟨?_, hxshm, countOnes_and_split hm64 hsm64⟩
  exact wshl64_eq_shiftLeft
    (Nat.lt_of_lt_of_le hx2 (Nat.pow_le_pow_right (by omega) (by omega)))
    (by omega) hxsh64

theorem SparseBlobDeque.wf_extend_back {V : Type} (s : SparseBlobDeque V)
    (n : Nat) (h : s.WF) : (s.extend_back n).WF := by
  by_cases hcap : s.capacity ≤ n
  · rw [SparseBlobDeque.extend_back_spec_ge s n hcap]
    obtain ⟨mask, len, cap, items⟩ := s
    obtain ⟨hm, hcnt, hlc, hc64, hc1, hdl, hic⟩ := h
    have hc64 : cap ≤ 64 := hc64
    have hc1 : 1 ≤ cap := hc1
    refine ⟨?_, ?_, ?_, hc64, hc1, ?_, ?_⟩
    · show (0 : Nat) < 2 ^ cap
      exact Nat.pos_pow_of_pos _ (by omega)
    · show countOnes 0 = 0
      exact countOnes_zero
    · show cap ≤ cap
      omega
    · show ([] : List V).length = 0
      rfl
    · show (0 : Nat) ≤ items.capacity
      omega
  · rw [SparseBlobDeque.extend_back_spec_lt s n hcap]
    obtain ⟨mask, len, cap, items⟩ := s
    obtain ⟨hm, hcnt, hlc, hc64, hc1, hdl, hic⟩ := h
    have hm : mask < 2 ^ len := hm
    have hcnt : countOnes mask = items.len := hcnt
    have hlc : len ≤ cap := hlc
    have hc64 : cap ≤ 64 := hc64
    have hc1 : 1 ≤ cap := hc1
    have hdl : items.data.length = items.len := hdl
    have hic : items.len ≤ items.capacity := hic
    have hcap : ¬ cap ≤ n := hcap
    have hncap : n < cap := by omega
    obtain ⟨e1, e2, e3⟩ := extend_back_mask_facts hm hlc hc64 hncap
    have hones_le : countOnes (mask &&& wshl64 ((1 <<< n) - 1) (cap - n)) ≤
        countOnes mask := countOnes_and_le _ _
    obtain ⟨d1, d2, d3⟩ := BlobDeque.drop_front_n_spec
      (countOnes (mask &&& wshl64 ((1 <<< n) - 1) (cap - n))) items
      (by omega) (by omega)
    refine ⟨?_, ?_, ?_, hc64, hc1, ?_, ?_⟩
    · show wshl64 (mask &&& not64 (wshl64 ((1 <<< n) - 1) (cap - n))) n <
        2 ^ rmin (len + n) cap
      rw [e1]
      exact e2
    · show countOnes
          (wshl64 (mask &&& not64 (wshl64 ((1 <<< n) - 1) (cap - n))) n) = _
      rw [e1, countOnes_shiftLeft (Nat.lt_of_lt_of_le e2
        (Nat.pow_le_pow_right (by omega)
          (Nat.le_trans (rmin_le_right _ _) hc64))), d1]
      omega
    · show rmin (len + n) cap ≤ cap
      exact rmin_le_right _ _
    · show (items.drop_front_n
          (countOnes (mask &&& wshl64 ((1 <<< n) - 1) (cap - n)))).data.length =
        (items.drop_front_n
          (countOnes (mask &&& wshl64 ((1 <<< n) - 1) (cap - n)))).len
      omega
    · show (items.drop_front_n
          (countOnes (mask &&& wshl64 ((1 <<< n) - 1) (cap - n)))).len ≤
        (items.drop_front_n
          (countOnes (mask &&& wshl64 ((1 <<< n) - 1) (cap - n)))).capacity
      rw [d1, d3]
      omega

theorem SparseBlobDeque.trim_back_spec_ge {V : Type} (s : SparseBlobDeque V)
    (n : Nat) (h : s.len ≤ n) : s.trim_back n = s.clear := by
  unfold SparseBlobDeque.trim_back
  rw [if_pos h]

theorem SparseBlobDeque.trim_back_spec_lt {V : Type} (s : SparseBlobDeque V)
    (n : Nat) (h : ¬ s.len ≤ n) :
    s.trim_back n =
      { s with
        items := s.items.drop_back_n (countOnes (s.mask &&& ((1 <<< n) - 1))),
        mask := wshr64 s.mask n,
        len := s.len - n } := by
  unfold SparseBlobDeque.trim_back
  rw [if_neg h]

theorem SparseBlobDeque.wf_trim_back {V : Type} (s : SparseBlobDeque V)
    (n : Nat) (h : s.WF) : (s.trim_back n).WF := by
  by_cases hn : s.len ≤ n
  · rw [SparseBlobDeque.trim_back_spec_ge s n hn]
    exact SparseBlobDeque.wf_clear s h
  · rw [SparseBlobDeque.trim_back_spec_lt s n hn]
    obtain ⟨mask, len, cap, items⟩ := s
    obtain ⟨hm, hcnt, hlc, hc64, hc1, hdl, hic⟩ := h
    have hm : mask < 2 ^ len := hm
    have hcnt : countOnes mask = items.len := hcnt
    have hlc : len ≤ cap := hlc
    have hc64 : cap ≤ 64 := hc64
    have hc1 : 1 ≤ cap := hc1
    have hdl : items.data.length = items.len := hdl
    have hic : items.len ≤ items.capacity := hic
    have hn : ¬ len ≤ n := hn
    have hm64 : mask < 2 ^ 64 :=
      Nat.lt_of_lt_of_le hm (Nat.pow_le_pow_right (by omega) (by omega))
    have hlow : mask &&& ((1 <<< n) - 1) = mask % 2 ^ n := by
      rw [Nat.one_shiftLeft]
      exact Nat.and_pow_two_sub_one_eq_mod mask n
    have hsplit := countOnes_shiftRight_add n mask hm64
    have hlowc : countOnes (mask &&& ((1 <<< n) - 1)) = countOnes (mask % 2 ^ n) := by
      rw [hlow]
    have hdrop_le : countOnes (mask % 2 ^ n) ≤ countOnes mask := by omega
    obtain ⟨d1, d2, d3⟩ := BlobDeque.drop_back_n_spec
      (countOnes (mask &&& ((1 <<< n) - 1))) items (by omega) (by omega)
    have hshr : wshr64 mask n = mask >>> n :=
      wshr64_eq_shiftRight hm64 (by omega)
    have hbound : mask >>> n < 2 ^ (len - n) := by
      rw [Nat.shiftRight_eq_div_pow, Nat.div_lt_iff_lt_mul
        (Nat.pos_pow_of_pos n (by omega)), ← pow_add,
        Nat.sub_add_cancel (by omega : n ≤ len)]
      exact hm
    refine ⟨?_, ?_, ?_, hc64, hc1, ?_, ?_⟩
    · show wshr64 mask n < 2 ^ (len - n)
      rw [hshr]
      exact hbound
    · show countOnes (wshr64 mask n) =
        (items.drop_back_n (countOnes (mask &&& ((1 <<< n) - 1)))).len
      rw [hshr, d1, hlow]
      omega
    · show len - n ≤ cap
      omega
    · show (items.drop_back_n (countOnes (mask &&& ((1 <<< n) - 1)))).data.length =
        (items.drop_back_n (countOnes (mask &&& ((1 <<< n) - 1)))).len
      omega
    · show (items.drop_back_n (countOnes (mask &&& ((1 <<< n) - 1)))).len ≤
        (items.drop_back_n (countOnes (mask &&& ((1 <<< n) - 1)))).capacity
      rw [d1, d3]
      omega

theorem SparseBlobDeque.replace_spec_oob {V : Type} (s : SparseBlobDeque V)
    (index : Nat) (v : V) (h : s.len ≤ index) : s.replace index v = s := by
  unfold SparseBlobDeque.replace
  rw [if_pos h]

theorem SparseBlobDeque.replace_spec_hit {V : Type} (s : SparseBlobDeque V)
    (index : Nat) (v : V) (h1 : ¬ s.len ≤ index)
    (h2 : s.mask &&& (1 <<< (s.len - 1 - index)) ≠ 0) :
    s.replace index v =
      { s with items := (s.items.set_item
          (countOnes (s.mask &&& not64 ((1 <<< (s.len - 1 - index)) - 1)) - 1) v) } := by
  simp only [SparseBlobDeque.replace]
  rw [if_neg h1, if_pos h2]

theorem SparseBlobDeque.replace_spec_append {V : Type} (s : SparseBlobDeque V)
    (index : Nat) (v : V) (h1 : ¬ s.len ≤ index)
    (h2 : ¬ s.mask &&& (1 <<< (s.len - 1 - index)) ≠ 0)
    (h3 : s.mask &&& not64 (not64 ((1 <<< (s.len - 1 - index)) - 1)) = 0) :
    s.replace index v =
      { s with
        mask := (s.mask ||| (1 <<< (s.len - 1 - index))),
        items := ((if s.items.len = s.items.capacity then
            s.items.resize (s.items.capacity + 1) else s.items).append v) } := by
  simp only [SparseBlobDeque.replace]
  rw [if_neg h1, if_neg h2, if_pos h3]

theorem SparseBlobDeque.replace_spec_insert {V : Type} (s : SparseBlobDeque V)
    (index : Nat) (v : V) (h1 : ¬ s.len ≤ index)
    (h2 : ¬ s.mask &&& (1 <<< (s.len - 1 - index)) ≠ 0)
    (h3 : ¬ s.mask &&& not64 (not64 ((1 <<< (s.len - 1 - index)) - 1)) = 0) :
    s.replace index v =
      { s with
        mask := (s.mask ||| (1 <<< (s.len - 1 - index))),
        items := (((if s.items.len = s.items.capacity then
            s.items.resize (s.items.capacity + 1) else s.items).insert
          (countOnes (s.mask &&& not64 ((1 <<< (s.len - 1 - index)) - 1))) v).2) } := by
  simp only [SparseBlobDeque.replace]
  rw [if_neg h1, if_neg h2, if_neg h3]

theorem BlobDeque.set_item_fields {V : Type} (b : BlobDeque V) (i : Nat) (v : V) :
    (b.set_item i v).len = b.len ∧ (b.set_item i v).capacity = b.capacity ∧
    (b.set_item i v).data.length = b.data.length := by
  unfold BlobDeque.set_item
  split
  · exact ⟨rfl, rfl, rfl⟩
  · exact ⟨rfl, rfl, by simp⟩

set_option maxHeartbeats 3200000 in
theorem SparseBlobDeque.wf_replace {V : Type} (s : SparseBlobDeque V)
    (index : Nat) (v : V) (h : s.WF) : (s.replace index v).WF := by
  by_cases hoob : s.len ≤ index
  · rw [SparseBlobDeque.replace_spec_oob s index v hoob]
    exact h
  by_cases hbit : s.mask &&& (1 <<< (s.len - 1 - index)) ≠ 0
  · rw [SparseBlobDeque.replace_spec_hit s index v hoob hbit]
    obtain ⟨mask, len, cap, items⟩ := s
    obtain ⟨hm, hcnt, hlc, hc64, hc1, hdl, hic⟩ := h
    have hcnt : countOnes mask = items.len := hcnt
    have hdl : items.data.length = items.len := hdl
    have hic : items.len ≤ items.capacity := hic
    obtain ⟨f1, f2, f3⟩ := BlobDeque.set_item_fields items
      (countOnes (mask &&& not64 ((1 <<< (len - 1 - index)) - 1)) - 1) v
    refine ⟨hm, ?_, hlc, hc64, hc1, ?_, ?_⟩
    · show countOnes mask = _
      rw [f1]
      exact hcnt
    · show _ = _
      rw [f3, f1]
      exact hdl
    · show _ ≤ _
      rw [f1, f2]
      exact hic
  by_cases h3 : s.mask &&& not64 (not64 ((1 <<< (s.len - 1 - index)) - 1)) = 0
  · rw [SparseBlobDeque.replace_spec_append s index v hoob hbit h3]
    obtain ⟨mask, len, cap, items⟩ := s
    obtain ⟨hm, hcnt, hlc, hc64, hc1, hdl, hic⟩ := h
    have hm : mask < 2 ^ len := hm
    have hcnt : countOnes mask = items.len := hcnt
    have hlc : len ≤ cap := hlc
    have hc64 : cap ≤ 64 := hc64
    have hc1 : 1 ≤ cap := hc1
    have hdl : items.data.length = items.len := hdl
    have hic : items.len ≤ items.capacity := hic
    have hoob : ¬ len ≤ index := hoob
    have hbit : ¬ mask &&& (1 <<< (len - 1 - index)) ≠ 0 := hbit
    have h2e : (1 : Nat) <<< (len - 1 - index) = 2 ^ (len - 1 - index) :=
      Nat.one_shiftLeft _
    have he64 : len - 1 - index < 64 := by omega
    have helen : len - 1 - index < len := by omega
    have hbit' : mask.testBit (len - 1 - index) = false := by
      rw [← and_two_pow_eq_zero_iff, ← h2e]
      omega
    have hmor : mask ||| (1 <<< (len - 1 - index)) < 2 ^ len := by
      rw [h2e]
      exact Nat.or_lt_two_pow hm (Nat.pow_lt_pow_right (by omega) helen)
    have hcntor : countOnes (mask ||| (1 <<< (len - 1 - index))) =
        countOnes mask + 1 := by
      rw [h2e, Nat.lor_comm]
      exact countOnes_lor_two_pow he64 hbit'
    by_cases hresz : items.len = items.capacity
    · rw [if_pos hresz,
        BlobDeque.resize_grow items (items.capacity + 1) (by omega) (by omega)]
      rw [BlobDeque.append_no_evict _ v (by simp only; omega)]
      refine ⟨hmor, ?_, hlc, hc64, hc1, ?_, ?_⟩
      · show countOnes (mask ||| (1 <<< (len - 1 - index))) = items.len + 1
        omega
      · show (items.data ++ [v]).length = items.len + 1
        simp
        omega
      · show items.len + 1 ≤ items.capacity + 1
        omega
    · rw [if_neg hresz, BlobDeque.append_no_evict items v hresz]
      refine ⟨hmor, ?_, hlc, hc64, hc1, ?_, ?_⟩
      · show countOnes (mask ||| (1 <<< (len - 1 - index))) = items.len + 1
        omega
      · show (items.data ++ [v]).length = items.len + 1
        simp
        omega
      · show items.len + 1 ≤ items.capacity
        omega
  · rw [SparseBlobDeque.replace_spec_insert s index v hoob hbit h3]
    obtain ⟨mask, len, cap, items⟩ := s
    obtain ⟨hm, hcnt, hlc, hc64, hc1, hdl, hic⟩ := h
    have hm : mask < 2 ^ len := hm
    have hcnt : countOnes mask = items.len := hcnt
    have hlc : len ≤ cap := hlc
    have hc64 : cap ≤ 64 := hc64
    have hc1 : 1 ≤ cap := hc1
    have hdl : items.data.length = items.len := hdl
    have hic : items.len ≤ items.capacity := hic
    have hoob : ¬ len ≤ index := hoob
    have hbit : ¬ mask &&& (1 <<< (len - 1 - index)) ≠ 0 := hbit
    have h2e : (1 : Nat) <<< (len - 1 - index) = 2 ^ (len - 1 - index) :=
      Nat.one_shiftLeft _
    have he64 : len - 1 - index < 64 := by omega
    have helen : len - 1 - index < len := by omega
    have hbit' : mask.testBit (len - 1 - index) = false := by
      rw [← and_two_pow_eq_zero_iff, ← h2e]
      omega
    have hmor : mask ||| (1 <<< (len - 1 - index)) < 2 ^ len := by
      rw [h2e]
      exact Nat.or_lt_two_pow hm (Nat.pow_lt_pow_right (by omega) helen)
    have hcntor : countOnes (mask ||| (1 <<< (len - 1 - index))) =
        countOnes mask + 1 := by
      rw [h2e, Nat.lor_comm]
      exact countOnes_lor_two_pow he64 hbit'
    have hones_le : countOnes (mask &&& not64 ((1 <<< (len - 1 - index)) - 1)) ≤
        countOnes mask := countOnes_and_le _ _
    by_cases hresz : items.len = items.capacity
    · rw [if_pos hresz,
        BlobDeque.resize_grow items (items.capacity + 1) (by omega) (by omega)]
      obtain ⟨b', hins, hb1, hb2, hb3⟩ := BlobDeque.insert_success
        { items with capacity := items.capacity + 1, start := 0 }
        (countOnes (mask &&& not64 ((1 <<< (len - 1 - index)) - 1))) v
        (by simp only; omega) (by simp only; omega)
      rw [hins]
      have hb1' : b'.len = items.len + 1 := hb1
      have hb2' : b'.capacity = items.capacity + 1 := hb2
      have hb3' : b'.data.length = items.data.length + 1 := by
        rw [hb3]
        exact List.length_insertIdx _ _ (by rw [hdl]; omega)
      refine ⟨hmor, ?_, hlc, hc64, hc1, ?_, ?_⟩
      · show countOnes (mask ||| (1 <<< (len - 1 - index))) = b'.len
        rw [hb1', hcntor, hcnt]
      · show b'.data.length = b'.len
        rw [hb1', hb3', hdl]
      · show b'.len ≤ b'.capacity
        rw [hb1', hb2']
        omega
    · rw [if_neg hresz]
      obtain ⟨b', hins, hb1, hb2, hb3⟩ := BlobDeque.insert_success items
        (countOnes (mask &&& not64 ((1 <<< (len - 1 - index)) - 1))) v
        hresz (by omega)
      rw [hins]
      have hb3' : b'.data.length = items.data.length + 1 := by
        rw [hb3]
        exact List.length_insertIdx _ _ (by rw [hdl]; omega)
      refine ⟨hmor, ?_, hlc, hc64, hc1, ?_, ?_⟩
      · show countOnes (mask ||| (1 <<< (len - 1 - index))) = b'.len
        rw [hb1, hcntor, hcnt]
      · show b'.data.length = b'.len
        rw [hb1, hb3', hdl]
      · show b'.len ≤ b'.capacity
        rw [hb1, hb2]
        omega

/-! ### `SparseBlobDeque.append` under well-formedness -/

theorem SparseBlobDeque.append_spec_none {V : Type} (s : SparseBlobDeque V)
    (h : s.len ≠ s.capacity) :
    s.append none = { s with mask := (s.mask <<< 1) % 2 ^ 64, len := s.len + 1 } := by
  simp only [SparseBlobDeque.append]
  rw [if_neg h]

theorem SparseBlobDeque.append_spec_some {V : Type} (s : SparseBlobDeque V)
    (v : V) (h : s.len ≠ s.capacity) :
    s.append (some v) =
      { s with
        mask := ((s.mask <<< 1) % 2 ^ 64) ||| 1,
        len := s.len + 1,
        items :=
          (if s.items.capacity = s.items.len ∧ s.items.capacity ≠ s.capacity then
            s.items.resize (s.items.capacity + 1)
          else s.items).append v } := by
  simp only [SparseBlobDeque.append]
  rw [if_neg h]

theorem SparseBlobDeque.append_full_step {V : Type} (s : SparseBlobDeque V)
    (hfull : s.len = s.capacity) (hc1 : 1 ≤ s.capacity) (v? : Option V) :
    s.append v? =
      SparseBlobDeque.append
        { s with
          items := (if s.mask &&& (1 <<< (s.len - 1)) ≠ 0 then s.items.drop_front
                    else s.items),
          mask := s.mask &&& not64 (1 <<< (s.len - 1)),
          len := s.len - 1 } v? := by
  have hne : ¬ ((s.len - 1 : Nat) = s.capacity) := by omega
  cases v? with
  | none =>
    simp only [SparseBlobDeque.append]
    rw [if_pos hfull, if_neg hne]
  | some v =>
    simp only [SparseBlobDeque.append]
    rw [if_pos hfull, if_neg hne]

theorem SparseBlobDeque.wf_append_nofull {V : Type} (s : SparseBlobDeque V)
    (v? : Option V) (h : s.WF) (hlt : s.len < s.capacity) : (s.append v?).WF := by
  have hne : s.len ≠ s.capacity := by omega
  obtain ⟨mask, len, cap, items⟩ := s
  obtain ⟨hm, hcnt, hlc, hc64, hc1, hdl, hic⟩ := h
  have hm : mask < 2 ^ len := hm
  have hcnt : countOnes mask = items.len := hcnt
  have hlt : len < cap := hlt
  have hne : len ≠ cap := hne
  have hc64 : cap ≤ 64 := hc64
  have hc1 : 1 ≤ cap := hc1
  have hdl : items.data.length = items.len := hdl
  have hic : items.len ≤ items.capacity := hic
  have hsh : mask <<< 1 < 2 ^ (len + 1) := by
    rw [Nat.shiftLeft_eq, pow_one, pow_succ]
    omega
  have hsh64 : mask <<< 1 < 2 ^ 64 :=
    Nat.lt_of_lt_of_le hsh (Nat.pow_le_pow_right (by omega) (by omega))
  have hmod : (mask <<< 1) % 2 ^ 64 = mask <<< 1 := Nat.mod_eq_of_lt hsh64
  cases v? with
  | none =>
    rw [SparseBlobDeque.append_spec_none _ hne]
    refine ⟨?_, ?_, ?_, hc64, hc1, hdl, hic⟩
    · show (mask <<< 1) % 2 ^ 64 < 2 ^ (len + 1)
      rw [hmod]
      exact hsh
    · show countOnes ((mask <<< 1) % 2 ^ 64) = items.len
      rw [hmod, countOnes_shiftLeft hsh64, hcnt]
    · show len + 1 ≤ cap
      omega
  | some v =>
    rw [SparseBlobDeque.append_spec_some _ v hne]
    dsimp only
    have hbit0 : (mask <<< 1).testBit 0 = false := by
      simp [Nat.testBit_shiftLeft]
    have h1lt : (1 : Nat) < 2 ^ (len + 1) := by
      have h2 : (2 : Nat) ^ 1 ≤ 2 ^ (len + 1) :=
        Nat.pow_le_pow_right (by omega) (by omega)
      omega
    have hmlt : ((mask <<< 1) % 2 ^ 64) ||| 1 < 2 ^ (len + 1) := by
      rw [hmod]
      exact Nat.or_lt_two_pow hsh h1lt
    have hcnt' : countOnes (((mask <<< 1) % 2 ^ 64) ||| 1) = items.len + 1 := by
      rw [hmod, Nat.lor_comm]
      have h0 : ((1 : Nat) ||| mask <<< 1) = 2 ^ 0 ||| mask <<< 1 := by
        rw [pow_zero]
      rw [h0, countOnes_lor_two_pow (by omega) hbit0, countOnes_shiftLeft hsh64,
        hcnt]
    by_cases hr : items.capacity = items.len ∧ items.capacity ≠ cap
    · rw [if_pos hr,
        BlobDeque.resize_grow items (items.capacity + 1) (by omega) (by omega),
        BlobDeque.append_no_evict _ v (by simp only; omega)]
      refine ⟨?_, ?_, ?_, hc64, hc1, ?_, ?_⟩
      · show ((mask <<< 1) % 2 ^ 64) ||| 1 < 2 ^ (len + 1)
        exact hmlt
      · show countOnes (((mask <<< 1) % 2 ^ 64) ||| 1) = items.len + 1
        exact hcnt'
      · show len + 1 ≤ cap
        omega
      · show (items.data ++ [v]).length = items.len + 1
        simp
        omega
      · show items.len + 1 ≤ items.capacity + 1
        omega
    · rw [if_neg hr]
      have hneic : items.len ≠ items.capacity := by
        intro he
        have h2 : items.capacity = cap := by
          by_contra hne2
          exact hr ⟨he.symm, hne2⟩
        have h3 : countOnes mask ≤ len := countOnes_le hm
        omega
      rw [BlobDeque.append_no_evict items v hneic]
      refine ⟨?_, ?_, ?_, hc64, hc1, ?_, ?_⟩
      · show ((mask <<< 1) % 2 ^ 64) ||| 1 < 2 ^ (len + 1)
        exact hmlt
      · show countOnes (((mask <<< 1) % 2 ^ 64) ||| 1) = items.len + 1
        exact hcnt'
      · show len + 1 ≤ cap
        omega
      · show (items.data ++ [v]).length = items.len + 1
        simp
        omega
      · show items.len + 1 ≤ items.capacity
        omega

theorem SparseBlobDeque.wf_append {V : Type} (s : SparseBlobDeque V)
    (v? : Option V) (h : s.WF) : (s.append v?).WF := by
  by_cases hfull : s.len = s.capacity
  · have hc1 : 1 ≤ s.capacity := h.2.2.2.2.1
    rw [SparseBlobDeque.append_full_step s hfull hc1 v?]
    obtain ⟨mask, len, cap, items⟩ := s
    obtain ⟨hm, hcnt, hlc, hc64, hc1', hdl, hic⟩ := h
    have hm : mask < 2 ^ len := hm
    have hcnt : countOnes mask = items.len := hcnt
    have hc64 : cap ≤ 64 := hc64
    have hc1' : 1 ≤ cap := hc1'
    have hdl : items.data.length = items.len := hdl
    have hic : items.len ≤ items.capacity := hic
    have hfull : len = cap := hfull
    have h2e : (1 : Nat) <<< (len - 1) = 2 ^ (len - 1) := Nat.one_shiftLeft _
    have hmask' : mask &&& not64 ((1 : Nat) <<< (len - 1)) =
        mask % 2 ^ (len - 1) := by
      rw [h2e]
      exact and_not64_top (by omega) (by omega) hm
    have hsplit : countOnes mask =
        (if mask.testBit (len - 1) then 1 else 0) +
          countOnes (mask &&& not64 ((1 : Nat) <<< (len - 1))) := by
      rw [h2e]
      exact countOnes_split_top (by omega) (by omega) hm
    apply SparseBlobDeque.wf_append_nofull
    · by_cases hz : mask &&& ((1 : Nat) <<< (len - 1)) = 0
      · have hb : mask.testBit (len - 1) = false := by
          rw [← and_two_pow_eq_zero_iff, ← h2e]
          exact hz
        rw [hb, if_neg Bool.false_ne_true] at hsplit
        refine ⟨?_, ?_, ?_, hc64, hc1', ?_, ?_⟩
        · show mask &&& not64 ((1 : Nat) <<< (len - 1)) < 2 ^ (len - 1)
          rw [hmask']
          exact Nat.mod_lt _ (Nat.pos_pow_of_pos _ (by omega))
        · show countOnes (mask &&& not64 ((1 : Nat) <<< (len - 1))) =
            (if mask &&& ((1 : Nat) <<< (len - 1)) ≠ 0 then items.drop_front
             else items).len
          rw [if_neg (not_not_intro hz)]
          omega
        · show len - 1 ≤ cap
          omega
        · show (if mask &&& ((1 : Nat) <<< (len - 1)) ≠ 0 then items.drop_front
              else items).data.length =
            (if mask &&& ((1 : Nat) <<< (len - 1)) ≠ 0 then items.drop_front
             else items).len
          rw [if_neg (not_not_intro hz)]
          exact hdl
        · show (if mask &&& ((1 : Nat) <<< (len - 1)) ≠ 0 then items.drop_front
              else items).len ≤
            (if mask &&& ((1 : Nat) <<< (len - 1)) ≠ 0 then items.drop_front
             else items).capacity
          rw [if_neg (not_not_intro hz)]
          exact hic
      · have hb : mask.testBit (len - 1) = true := by
          cases hx : mask.testBit (len - 1) with
          | false =>
            exact absurd (by rw [h2e, and_two_pow_eq_zero_iff]; exact hx) hz
          | true => rfl
        rw [hb, if_pos rfl] at hsplit
        have hil : items.len ≠ 0 := by omega
        have hdf : items.drop_front =
            { items with start := (items.start + 1) % items.capacity,
                         len := items.len - 1, data := items.data.tail } := by
          unfold BlobDeque.drop_front
          rw [if_neg hil]
        refine ⟨?_, ?_, ?_, hc64, hc1', ?_, ?_⟩
        · show mask &&& not64 ((1 : Nat) <<< (len - 1)) < 2 ^ (len - 1)
          rw [hmask']
          exact Nat.mod_lt _ (Nat.pos_pow_of_pos _ (by omega))
        · show countOnes (mask &&& not64 ((1 : Nat) <<< (len - 1))) =
            (if mask &&& ((1 : Nat) <<< (len - 1)) ≠ 0 then items.drop_front
             else items).len
          rw [if_pos hz, hdf]
          show countOnes (mask &&& not64 ((1 : Nat) <<< (len - 1))) =
            items.len - 1
          omega
        · show len - 1 ≤ cap
          omega
        · show (if mask &&& ((1 : Nat) <<< (len - 1)) ≠ 0 then items.drop_front
              else items).data.length =
            (if mask &&& ((1 : Nat) <<< (len - 1)) ≠ 0 then items.drop_front
             else items).len
          rw [if_pos hz, hdf]
          show items.data.tail.length = items.len - 1
          rw [List.length_tail, hdl]
        · show (if mask &&& ((1 : Nat) <<< (len - 1)) ≠ 0 then items.drop_front
              else items).len ≤
            (if mask &&& ((1 : Nat) <<< (len - 1)) ≠ 0 then items.drop_front
             else items).capacity
          rw [if_pos hz, hdf]
          show items.len - 1 ≤ items.capacity
          omega
    · show len - 1 < cap
      omega
  · exact SparseBlobDeque.wf_append_nofull s v? h
      (Nat.lt_of_le_of_ne h.2.2.1 hfull)

theorem SparseBlobDeque.wf_of_reach {V : Type} {s : SparseBlobDeque V}
    (h : s.Reach) : s.WF := by
  induction h with
  | new cap h1 h2 => exact SparseBlobDeque.wf_fresh cap h1 h2
  | append s v? _ ih => exact SparseBlobDeque.wf_append s v? ih
  | extend_front s n _ ih => exact SparseBlobDeque.wf_extend_front s n ih
  | extend_back s n _ ih => exact SparseBlobDeque.wf_extend_back s n ih
  | trim_back s n _ ih => exact SparseBlobDeque.wf_trim_back s n ih
  | replace s i v _ ih => exact SparseBlobDeque.wf_replace s i v ih
  | clear s _ ih => exact SparseBlobDeque.wf_clear s ih

theorem and_two_pow_sub_one (x n : Nat) : x &&& (2 ^ n - 1) = x % 2 ^ n := by
  apply Nat.eq_of_testBit_eq
  intro i
  rw [Nat.testBit_and, Nat.testBit_mod_two_pow, Nat.testBit_two_pow_sub_one]
  exact Bool.and_comm _ _

/-! ### Reading back a replaced slot -/

theorem getElem?_append_len {A : Type} : ∀ (l : List A) (a : A),
    (l ++ [a])[l.length]? = some a := by
  intro l a
  induction l with
  | nil => rfl
  | cons x xs ih =>
    rw [List.cons_append, List.length_cons, List.getElem?_cons_succ]
    exact ih

theorem countOnes_pos_of_testBit {x e : Nat} (he : e < 64)
    (hb : x.testBit e = true) : 1 ≤ countOnes x := by
  have hand : 2 ^ e &&& x = 2 ^ e := by
    rw [Nat.and_comm, and_two_pow_cases, if_pos hb]
  have h := @countOnes_split (2 ^ e) x hand
  rw [countOnes_two_pow he] at h
  omega

theorem testBit_and_not64_sub_one {mask e : Nat} (he : e < 64) :
    (mask &&& not64 (2 ^ e - 1)).testBit e = mask.testBit e := by
  have hsm : (2 : Nat) ^ e - 1 < 2 ^ 64 := by
    have ha : (2 : Nat) ^ e ≤ 2 ^ 64 := Nat.pow_le_pow_right (by omega) (by omega)
    have hb : (0 : Nat) < 2 ^ e := Nat.pos_pow_of_pos e (by omega)
    omega
  rw [Nat.testBit_and, testBit_not64 hsm, Nat.testBit_two_pow_sub_one]
  simp [he]

theorem or_two_pow_and_not64_low {mask e : Nat} (he : e < 64) :
    (mask ||| 2 ^ e) &&& not64 (2 ^ e - 1) =
      (mask &&& not64 (2 ^ e - 1)) ||| 2 ^ e := by
  have hsm : (2 : Nat) ^ e - 1 < 2 ^ 64 := by
    have ha : (2 : Nat) ^ e ≤ 2 ^ 64 := Nat.pow_le_pow_right (by omega) (by omega)
    have hb : (0 : Nat) < 2 ^ e := Nat.pos_pow_of_pos e (by omega)
    omega
  apply Nat.eq_of_testBit_eq
  intro i
  rw [Nat.testBit_or, Nat.testBit_and, Nat.testBit_and, Nat.testBit_or,
    testBit_not64 hsm, Nat.testBit_two_pow_sub_one, Nat.testBit_two_pow]
  by_cases hie : e = i
  · subst hie
    simp [he]
  · simp [hie]

theorem SparseBlobDeque.replace_len {V : Type} (s : SparseBlobDeque V)
    (index : Nat) (v : V) : (s.replace index v).len = s.len := by
  simp only [SparseBlobDeque.replace]
  split
  · rfl
  · split
    · rfl
    · split
      · rfl
      · rfl

theorem SparseBlobDeque.get_replace_self {V : Type} (s : SparseBlobDeque V)
    (index : Nat) (v : V) (h : s.WF) (hix : index < s.len) :
    (s.replace index v).get index = some v := by
  obtain ⟨mask, len, cap, items⟩ := s
  obtain ⟨hm, hcnt, hlc, hc64, hc1, hdl, hic⟩ := h
  have hm : mask < 2 ^ len := hm
  have hcnt : countOnes mask = items.len := hcnt
  have hlc : len ≤ cap := hlc
  have hc64 : cap ≤ 64 := hc64
  have hdl : items.data.length = items.len := hdl
  have hic : items.len ≤ items.capacity := hic
  have hix : index < len := hix
  have h1 : ¬ len ≤ index := by omega
  have he64 : len - 1 - index < 64 := by omega
  have h2e : (1 : Nat) <<< (len - 1 - index) = 2 ^ (len - 1 - index) :=
    Nat.one_shiftLeft _
  by_cases hbit : mask &&& (1 <<< (len - 1 - index)) ≠ 0
  · rw [SparseBlobDeque.replace_spec_hit ⟨mask, len, cap, items⟩ index v h1 hbit]
    have hmb : mask.testBit (len - 1 - index) = true := by
      cases hx : mask.testBit (len - 1 - index) with
      | false =>
        exact absurd (by rw [h2e, and_two_pow_eq_zero_iff]; exact hx) hbit
      | true => rfl
    have htb : (mask &&& not64 (2 ^ (len - 1 - index) - 1)).testBit
        (len - 1 - index) = true := by
      rw [testBit_and_not64_sub_one he64]
      exact hmb
    have hone : 1 ≤ countOnes (mask &&& not64 ((1 <<< (len - 1 - index)) - 1)) := by
      rw [h2e]
      exact countOnes_pos_of_testBit he64 htb
    have hle : countOnes (mask &&& not64 ((1 <<< (len - 1 - index)) - 1)) ≤
        items.len := by
      have h4 := countOnes_and_le mask (not64 ((1 <<< (len - 1 - index)) - 1))
      omega
    simp only [SparseBlobDeque.get]
    rw [if_neg h1, if_neg hbit]
    have hset : items.set_item
        (countOnes (mask &&& not64 ((1 <<< (len - 1 - index)) - 1)) - 1) v =
        { items with data := (items.data.set
            (countOnes (mask &&& not64 ((1 <<< (len - 1 - index)) - 1)) - 1) v) } := by
      unfold BlobDeque.set_item
      rw [if_neg (by omega)]
    rw [hset]
    unfold BlobDeque.get
    rw [if_neg (by simp only; omega)]
    dsimp only
    exact List.getElem?_set_eq_of_lt v (by omega)
  · have hmb : mask.testBit (len - 1 - index) = false := by
      rw [← and_two_pow_eq_zero_iff, ← h2e]
      omega
    have htb2 : (mask &&& not64 (2 ^ (len - 1 - index) - 1)).testBit
        (len - 1 - index) = false := by
      rw [testBit_and_not64_sub_one he64]
      exact hmb
    have hbor : (mask ||| 2 ^ (len - 1 - index)).testBit (len - 1 - index) = true := by
      rw [Nat.testBit_or, Nat.testBit_two_pow_self]
      exact Bool.or_true _
    have h2or : ¬ (mask ||| (1 <<< (len - 1 - index))) &&& (1 <<< (len - 1 - index)) = 0 := by
      rw [h2e, and_two_pow_cases, if_pos hbor]
      have h5 := Nat.pos_pow_of_pos (len - 1 - index) (show 0 < 2 by omega)
      omega
    have hidx : countOnes ((mask ||| (1 <<< (len - 1 - index))) &&&
        not64 ((1 <<< (len - 1 - index)) - 1)) =
        countOnes (mask &&& not64 ((1 <<< (len - 1 - index)) - 1)) + 1 := by
      rw [h2e, or_two_pow_and_not64_low he64, Nat.lor_comm,
        countOnes_lor_two_pow he64 htb2]
    have honesle : countOnes (mask &&& not64 ((1 <<< (len - 1 - index)) - 1)) ≤
        items.len := by
      have h4 := countOnes_and_le mask (not64 ((1 <<< (len - 1 - index)) - 1))
      omega
    by_cases hlow : mask &&& not64 (not64 ((1 <<< (len - 1 - index)) - 1)) = 0
    · rw [SparseBlobDeque.replace_spec_append ⟨mask, len, cap, items⟩ index v h1
        hbit hlow]
      have hm64 : mask < 2 ^ 64 :=
        Nat.lt_of_lt_of_le hm (Nat.pow_le_pow_right (by omega) (by omega))
      have hsm64 : (2 : Nat) ^ (len - 1 - index) - 1 < 2 ^ 64 := by
        have ha : (2 : Nat) ^ (len - 1 - index) ≤ 2 ^ 64 :=
          Nat.pow_le_pow_right (by omega) (by omega)
        have hb : (0 : Nat) < 2 ^ (len - 1 - index) :=
          Nat.pos_pow_of_pos _ (by omega)
        omega
      have hlow2 : mask &&& (2 ^ (len - 1 - index) - 1) = 0 := by
        have h5 := hlow
        rw [h2e, not64_not64 hsm64] at h5
        exact h5
      have hsplit2 := countOnes_and_split hm64 hsm64
      rw [hlow2, countOnes_zero] at hsplit2
      have hones_eq : countOnes (mask &&& not64 ((1 <<< (len - 1 - index)) - 1)) =
          items.len := by
        rw [h2e]
        omega
      simp only [SparseBlobDeque.get]
      rw [if_neg h1, if_neg h2or]
      rw [hidx, Nat.add_sub_cancel, hones_eq]
      by_cases hresz : items.len = items.capacity
      · rw [if_pos hresz,
          BlobDeque.resize_grow items (items.capacity + 1) (by omega) (by omega),
          BlobDeque.append_no_evict _ v (by simp only; omega)]
        unfold BlobDeque.get
        rw [if_neg (by simp only; omega)]
        dsimp only
        rw [← hdl]
        exact getElem?_append_len items.data v
      · rw [if_neg hresz, BlobDeque.append_no_evict items v hresz]
        unfold BlobDeque.get
        rw [if_neg (by simp only; omega)]
        dsimp only
        rw [← hdl]
        exact getElem?_append_len items.data v
    · rw [SparseBlobDeque.replace_spec_insert ⟨mask, len, cap, items⟩ index v h1
        hbit hlow]
      simp only [SparseBlobDeque.get]
      rw [if_neg h1, if_neg h2or]
      rw [hidx, Nat.add_sub_cancel]
      by_cases hresz : items.len = items.capacity
      · rw [if_pos hresz,
          BlobDeque.resize_grow items (items.capacity + 1) (by omega) (by omega)]
        obtain ⟨b', hins, hb1, hb2, hb3⟩ := BlobDeque.insert_success
          { items with capacity := items.capacity + 1, start := 0 }
          (countOnes (mask &&& not64 ((1 <<< (len - 1 - index)) - 1))) v
          (by simp only; omega) (by simp only; omega)
        rw [hins]
        have hb1' : b'.len = items.len + 1 := hb1
        have hb3' : b'.data = items.data.insertIdx
            (countOnes (mask &&& not64 ((1 <<< (len - 1 - index)) - 1))) v := hb3
        show b'.get (countOnes (mask &&& not64 ((1 <<< (len - 1 - index)) - 1))) =
          some v
        unfold BlobDeque.get
        rw [if_neg (by omega)]
        rw [hb3']
        have hlen2 : countOnes (mask &&& not64 ((1 <<< (len - 1 - index)) - 1)) <
            (items.data.insertIdx
              (countOnes (mask &&& not64 ((1 <<< (len - 1 - index)) - 1))) v).length := by
          rw [List.length_insertIdx _ _ (by omega)]
          omega
        rw [List.getElem?_eq_getElem hlen2]
        exact congrArg some (List.getElem_insertIdx_self items.data v _ (by omega))
      · rw [if_neg hresz]
        obtain ⟨b', hins, hb1, hb2, hb3⟩ := BlobDeque.insert_success items
          (countOnes (mask &&& not64 ((1 <<< (len - 1 - index)) - 1))) v hresz
          (by omega)
        rw [hins]
        show b'.get (countOnes (mask &&& not64 ((1 <<< (len - 1 - index)) - 1))) =
          some v
        unfold BlobDeque.get
        rw [if_neg (by omega)]
        rw [hb3]
        have hlen2 : countOnes (mask &&& not64 ((1 <<< (len - 1 - index)) - 1)) <
            (items.data.insertIdx
              (countOnes (mask &&& not64 ((1 <<< (len - 1 - index)) - 1))) v).length := by
          rw [List.length_insertIdx _ _ (by omega)]
          omega
        rw [List.getElem?_eq_getElem hlen2]
        exact congrArg some (List.getElem_insertIdx_self items.data v _ (by omega))

theorem ComponentHistory.fill_gaps_le {V : Type} (h : ComponentHistory V)
    (tick : Nat) (htick : tick ≤ h.last_tick + 1) : h.fill_gaps tick = h := by
  unfold ComponentHistory.fill_gaps
  rw [if_pos (Or.inr htick)]

theorem ComponentHistory.write_spec_in_window {V : Type} (h : ComponentHistory V)
    (tick : Nat) (v : V) (hlen : h.list.len ≠ 0) (htick : tick ≤ h.last_tick)
    (hcap : ¬ h.list.capacity ≤ h.last_tick - tick) :
    h.write tick v =
      { h with list :=
          ((if h.list.len ≤ h.last_tick - tick then
              h.list.extend_front (h.last_tick - tick - (h.list.len - 1))
            else h.list).replace
            ((if h.list.len ≤ h.last_tick - tick then
                h.list.extend_front (h.last_tick - tick - (h.list.len - 1))
              else h.list).len - 1 - (h.last_tick - tick)) v) } := by
  simp only [ComponentHistory.write]
  rw [ComponentHistory.fill_gaps_le h tick (by omega)]
  rw [if_pos (And.intro hlen htick), if_neg hcap]

/-! ### Facts about sorted pair lists -/

theorem insertPair_ne_nil {V : Type} (p : Nat × V) : ∀ L, insertPair p L ≠ []
  | [] => by simp [insertPair]
  | q :: qs => by
    unfold insertPair
    split <;> simp

theorem insertPair_perm {V : Type} (p : Nat × V) :
    ∀ L : List (Nat × V), (insertPair p L).Perm (p :: L)
  | [] => List.Perm.refl _
  | q :: qs => by
    unfold insertPair
    split
    · exact List.Perm.refl _
    · exact ((insertPair_perm p qs).cons q).trans (List.Perm.swap p q qs)

theorem insertPair_length {V : Type} (p : Nat × V) (L : List (Nat × V)) :
    (insertPair p L).length = L.length + 1 := by
  rw [(insertPair_perm p L).length_eq]
  rfl

theorem pairwise_insertPair {V : Type} (p : Nat × V) (L : List (Nat × V)) :
    List.Pairwise (fun a b : Nat × V => a.1 < b.1) L →
    (∀ q ∈ L, q.1 ≠ p.1) →
    List.Pairwise (fun a b : Nat × V => a.1 < b.1) (insertPair p L) := by
  induction L with
  | nil =>
    intro _ _
    simp [insertPair]
  | cons q qs ih =>
    intro hs hf
    rw [List.pairwise_cons] at hs
    show List.Pairwise _ (if p.1 < q.1 then p :: q :: qs else q :: insertPair p qs)
    by_cases hlt : p.1 < q.1
    · rw [if_pos hlt]
      refine List.Pairwise.cons ?_ (List.Pairwise.cons hs.1 hs.2)
      intro x hx
      rcases List.mem_cons.mp hx with h | h
      · rw [h]
        exact hlt
      · have hq := hs.1 x h
        omega
    · rw [if_neg hlt]
      have hq : q.1 < p.1 := by
        have h5 := hf q (by simp)
        omega
      refine List.Pairwise.cons ?_ (ih hs.2 (fun x hx => hf x (by simp [hx])))
      intro x hx
      have hx' := (insertPair_perm p qs).mem_iff.mp hx
      rcases List.mem_cons.mp hx' with h | h
      · rw [h]
        exact hq
      · exact hs.1 x h

theorem lastTick_cons {V : Type} (p : Nat × V) (L : List (Nat × V)) (h : L ≠ []) :
    lastTick (p :: L) = lastTick L := by
  cases L with
  | nil => exact absurd rfl h
  | cons q qs => rfl

theorem lastTick_append_single {V : Type} (p : Nat × V) :
    ∀ L : List (Nat × V), lastTick (L ++ [p]) = p.1 := by
  intro L
  induction L with
  | nil => rfl
  | cons q qs ih =>
    rw [List.cons_append, lastTick_cons q (qs ++ [p]) (by simp), ih]

theorem firstTick_append_single {V : Type} (p : Nat × V) (L : List (Nat × V))
    (h : L ≠ []) : firstTick (L ++ [p]) = firstTick L := by
  cases L with
  | nil => exact absurd rfl h
  | cons q qs => rfl

theorem firstTick_le {V : Type} (L : List (Nat × V))
    (hs : List.Pairwise (fun a b : Nat × V => a.1 < b.1) L) :
    ∀ q ∈ L, firstTick L ≤ q.1 := by
  intro q hq
  cases L with
  | nil => simp at hq
  | cons r rs =>
    rw [List.pairwise_cons] at hs
    rcases List.mem_cons.mp hq with h | h
    · subst h
      exact Nat.le_refl _
    · have h6 := hs.1 q h
      show r.1 ≤ q.1
      omega

theorem le_lastTick {V : Type} : ∀ (L : List (Nat × V)),
    List.Pairwise (fun a b : Nat × V => a.1 < b.1) L →
    ∀ q ∈ L, q.1 ≤ lastTick L := by
  intro L
  induction L with
  | nil =>
    intro _ q hq
    simp at hq
  | cons r rs ih =>
    intro hs q hq
    rw [List.pairwise_cons] at hs
    cases rs with
    | nil =>
      rcases List.mem_cons.mp hq with h | h
      · subst h
        exact Nat.le_refl _
      · simp at h
    | cons s ss =>
      rw [lastTick_cons r (s :: ss) (by simp)]
      rcases List.mem_cons.mp hq with h | h
      · subst h
        have h1 := hs.1 s (by simp)
        have h2 := ih hs.2 s (by simp)
        omega
      · exact ih hs.2 q h

theorem firstTick_le_lastTick {V : Type} (L : List (Nat × V))
    (hs : List.Pairwise (fun a b : Nat × V => a.1 < b.1) L) (h : L ≠ []) :
    firstTick L ≤ lastTick L := by
  cases L with
  | nil => exact absurd rfl h
  | cons r rs => exact le_lastTick (r :: rs) hs r (by simp)

theorem lastTick_mem {V : Type} : ∀ (L : List (Nat × V)), L ≠ [] →
    ∃ p ∈ L, p.1 = lastTick L := by
  intro L
  induction L with
  | nil =>
    intro h
    exact absurd rfl h
  | cons r rs ih =>
    intro _
    cases rs with
    | nil => exact ⟨r, by simp, rfl⟩
    | cons s ss =>
      obtain ⟨p, hp, hpe⟩ := ih (by simp)
      refine ⟨p, by simp [hp], ?_⟩
      rw [lastTick_cons r (s :: ss) (by simp)]
      exact hpe

theorem firstTick_mem {V : Type} (L : List (Nat × V)) (h : L ≠ []) :
    ∃ p ∈ L, p.1 = firstTick L := by
  cases L with
  | nil => exact absurd rfl h
  | cons r rs => exact ⟨r, by simp, rfl⟩

theorem length_le_span {V : Type} : ∀ (L : List (Nat × V)),
    List.Pairwise (fun a b : Nat × V => a.1 < b.1) L → L ≠ [] →
    L.length ≤ lastTick L - firstTick L + 1 := by
  intro L
  induction L with
  | nil =>
    intro _ h
    exact absurd rfl h
  | cons r rs ih =>
    intro hs _
    rw [List.pairwise_cons] at hs
    cases rs with
    | nil =>
      show (1 : Nat) ≤ r.1 - r.1 + 1
      omega
    | cons s ss =>
      have hrec := ih hs.2 (by simp)
      have hs1 : r.1 < s.1 := hs.1 s (by simp)
      have hfs : firstTick (s :: ss) = s.1 := rfl
      have hsl : s.1 ≤ lastTick (s :: ss) := le_lastTick _ hs.2 s (by simp)
      rw [lastTick_cons r (s :: ss) (by simp)]
      show (s :: ss).length + 1 ≤ lastTick (s :: ss) - r.1 + 1
      rw [hfs] at hrec
      omega

theorem insertPair_of_big {V : Type} (p : Nat × V) :
    ∀ L : List (Nat × V), (∀ q ∈ L, q.1 < p.1) → insertPair p L = L ++ [p] := by
  intro L
  induction L with
  | nil =>
    intro _
    rfl
  | cons q qs ih =>
    intro hb
    show (if p.1 < q.1 then p :: q :: qs else q :: insertPair p qs) = (q :: qs) ++ [p]
    rw [if_neg (by have h5 := hb q (by simp); omega),
      ih (fun x hx => hb x (by simp [hx]))]
    rfl

theorem insertPair_of_small {V : Type} (p q : Nat × V) (qs : List (Nat × V))
    (h : p.1 < q.1) : insertPair p (q :: qs) = p :: q :: qs := by
  show (if p.1 < q.1 then p :: q :: qs else q :: insertPair p qs) = p :: q :: qs
  rw [if_pos h]

theorem lastTick_insertPair_le {V : Type} (p : Nat × V) :
    ∀ L : List (Nat × V), L ≠ [] → p.1 ≤ lastTick L →
      lastTick (insertPair p L) = lastTick L := by
  intro L
  induction L with
  | nil =>
    intro h _
    exact absurd rfl h
  | cons q qs ih =>
    intro _ hle
    show lastTick (if p.1 < q.1 then p :: q :: qs else q :: insertPair p qs) = _
    by_cases hlt : p.1 < q.1
    · rw [if_pos hlt]
      exact lastTick_cons p (q :: qs) (by simp)
    · rw [if_neg hlt]
      cases qs with
      | nil =>
        have hle' : p.1 ≤ q.1 := hle
        show p.1 = q.1
        omega
      | cons s ss =>
        rw [lastTick_cons q _ (insertPair_ne_nil p (s :: ss)),
          lastTick_cons q (s :: ss) (by simp)]
        refine ih (by simp) ?_
        rw [lastTick_cons q (s :: ss) (by simp)] at hle
        exact hle

theorem firstTick_insertPair {V : Type} (p q : Nat × V) (qs : List (Nat × V)) :
    firstTick (insertPair p (q :: qs)) = rmin p.1 q.1 := by
  show firstTick (if p.1 < q.1 then p :: q :: qs else q :: insertPair p qs) = _
  by_cases hlt : p.1 < q.1
  · rw [if_pos hlt, rmin_eq_left (by omega)]
    rfl
  · rw [if_neg hlt, rmin_eq_right (by omega)]
    rfl

theorem map_snd_insertPair {V : Type} (p : Nat × V) (L : List (Nat × V)) :
    List.Pairwise (fun a b : Nat × V => a.1 < b.1) L →
    (∀ q ∈ L, q.1 ≠ p.1) →
    (insertPair p L).map Prod.snd =
      (L.map Prod.snd).insertIdx
        ((L.filter fun q => decide (q.1 < p.1)).length) p.2 := by
  induction L with
  | nil =>
    intro _ _
    rfl
  | cons q qs ih =>
    intro hs hf
    rw [List.pairwise_cons] at hs
    show ((if p.1 < q.1 then p :: q :: qs else q :: insertPair p qs)).map Prod.snd = _
    by_cases hlt : p.1 < q.1
    · rw [if_pos hlt]
      have hnil : ((q :: qs).filter fun x => decide (x.1 < p.1)) = [] := by
        rw [List.filter_eq_nil_iff]
        intro x hx
        rcases List.mem_cons.mp hx with h | h
        · subst h
          simp
          omega
        · have h7 := hs.1 x h
          simp
          omega
      rw [hnil]
      rfl
    · rw [if_neg hlt]
      have hq : q.1 < p.1 := by
        have h5 := hf q (by simp)
        omega
      have hcons : ((q :: qs).filter fun x => decide (x.1 < p.1)) =
          q :: (qs.filter fun x => decide (x.1 < p.1)) :=
        List.filter_cons_of_pos (by simp [hq])
      rw [hcons]
      show q.2 :: (insertPair p qs).map Prod.snd =
        (q.2 :: qs.map Prod.snd).insertIdx
          ((qs.filter fun x => decide (x.1 < p.1)).length + 1) p.2
      rw [List.insertIdx_succ_cons, ih hs.2 (fun x hx => hf x (by simp [hx]))]

theorem nodup_exps {V : Type} {L : List (Nat × V)}
    (hs : List.Pairwise (fun a b : Nat × V => a.1 < b.1) L)
    {l : Nat} (hb : ∀ q ∈ L, q.1 ≤ l) :
    (L.map fun q => l - q.1).Nodup := by
  show List.Pairwise (fun a b => a ≠ b) (L.map fun q => l - q.1)
  rw [List.pairwise_map]
  refine List.Pairwise.imp_of_mem ?_ hs
  intro a b ha hb' hab
  have h1 := hb a ha
  have h2 := hb b hb'
  omega

/-! ### Reading a canonical history -/

theorem get_eq_getObs {V : Type} (h : ComponentHistory V) (tick : Nat) :
    h.get tick = getObs h.last_tick h.list.len h.removed_mask h.list.mask
      h.list.items.len h.list.items.data tick := rfl

theorem countOnes_maskOf_and_high {V : Type} {L : List (Nat × V)}
    (hs : List.Pairwise (fun a b : Nat × V => a.1 < b.1) L)
    (hb : ∀ q ∈ L, q.1 ≤ lastTick L)
    (hexp : ∀ q ∈ L, lastTick L - q.1 < 64)
    {t : Nat} (ht : t ≤ lastTick L) (ht64 : lastTick L - t ≤ 64) :
    countOnes (maskOf (L.map fun q => lastTick L - q.1) &&&
        not64 ((1 <<< (lastTick L - t)) - 1)) =
      (L.filter fun q => decide (q.1 ≤ t)).length := by
  have hnd := nodup_exps hs hb
  have hbound : ∀ e ∈ (L.map fun q => lastTick L - q.1), e < 64 := by
    intro e he
    obtain ⟨q, hq, hqe⟩ := List.mem_map.mp he
    have h5 := hexp q hq
    omega
  rw [Nat.one_shiftLeft, maskOf_and_high hnd hbound (by omega),
    countOnes_maskOf (hnd.filter _)
      (fun e he => hbound e (List.mem_of_mem_filter he)),
    List.filter_map, List.length_map]
  have hpc : ∀ q ∈ L,
      ((fun e => decide (lastTick L - t ≤ e)) ∘ fun q : Nat × V => lastTick L - q.1) q =
        decide (q.1 ≤ t) := by
    intro q hq
    have h1 := hb q hq
    show decide (lastTick L - t ≤ lastTick L - q.1) = decide (q.1 ≤ t)
    exact decide_eq_decide.mpr (by omega)
  rw [List.filter_congr hpc]

theorem sorted_getElem_filter_le {V : Type} : ∀ (L : List (Nat × V)),
    List.Pairwise (fun a b : Nat × V => a.1 < b.1) L → ∀ p ∈ L,
    (L.map Prod.snd)[(L.filter fun q => decide (q.1 ≤ p.1)).length - 1]? =
      some p.2 := by
  intro L
  induction L with
  | nil =>
    intro _ p hp
    simp at hp
  | cons q qs ih =>
    intro hs p hp
    rw [List.pairwise_cons] at hs
    rcases List.mem_cons.mp hp with h | h
    · subst h
      have hnil : (qs.filter fun x => decide (x.1 ≤ p.1)) = [] := by
        rw [List.filter_eq_nil_iff]
        intro x hx
        have h5 := hs.1 x hx
        simp
        omega
      rw [List.filter_cons_of_pos (by simp), hnil]
      simp
    · have hq : q.1 < p.1 := hs.1 p h
      rw [List.filter_cons_of_pos (by simp; omega)]
      have hpos : 0 < (qs.filter fun x => decide (x.1 ≤ p.1)).length :=
        List.length_pos_of_mem (List.mem_filter.mpr ⟨h, by simp⟩)
      obtain ⟨m, hm⟩ : ∃ m, (qs.filter fun x => decide (x.1 ≤ p.1)).length = m + 1 :=
        ⟨(qs.filter fun x => decide (x.1 ≤ p.1)).length - 1, by omega⟩
      rw [List.length_cons, hm]
      show ((q :: qs).map Prod.snd)[m + 1]? = some p.2
      rw [List.map_cons, List.getElem?_cons_succ]
      have hih := ih hs.2 p h
      rw [hm] at hih
      exact hih

theorem canon_get_missing {V : Type} {cap : Nat} {L : List (Nat × V)}
    {h : ComponentHistory V} (hc : IsCanon cap L h) {t : Nat}
    (ht : t ∉ L.map Prod.fst) :
    h.get t = TickData.Missing := by
  obtain ⟨hne, hsort, hcap1, hcap64, hspan, hlast, hlen, hrm, hcap, hmask,
    hdata, hilen, hicap⟩ := hc
  have hfle := firstTick_le_lastTick L hsort hne
  simp only [ComponentHistory.get, SparseBlobDeque.get, BlobDeque.get]
  rw [hlast, hlen, hrm, hmask, hdata, hilen]
  by_cases hgt : lastTick L < t
  · rw [if_pos hgt]
  · rw [if_neg hgt]
    by_cases hout : lastTick L - firstTick L + 1 ≤ lastTick L - t
    · rw [if_pos hout]
    · rw [if_neg hout]
      rw [if_neg (show ¬ (0 &&& 1 <<< (lastTick L - t) ≠ 0) by
        rw [Nat.zero_and]; omega)]
      rw [if_neg (show ¬ (lastTick L - firstTick L + 1 ≤
          lastTick L - firstTick L + 1 - 1 - (lastTick L - t)) by omega)]
      have he : lastTick L - firstTick L + 1 - 1 -
          (lastTick L - firstTick L + 1 - 1 - (lastTick L - t)) = lastTick L - t := by
        omega
      rw [he]
      have hnd := nodup_exps hsort (le_lastTick L hsort)
      have hnotmem : (lastTick L - t) ∉ (L.map fun q => lastTick L - q.1) := by
        intro hmem
        obtain ⟨q, hq, he2⟩ := List.mem_map.mp hmem
        have h1 := le_lastTick L hsort q hq
        have h2 : q.1 = t := by omega
        exact ht (List.mem_map.mpr ⟨q, hq, h2⟩)
      have hz : maskOf (L.map fun q => lastTick L - q.1) &&&
          (1 <<< (lastTick L - t)) = 0 := by
        rw [Nat.one_shiftLeft, and_two_pow_eq_zero_iff, testBit_maskOf hnd]
        simp [hnotmem]
      rw [if_pos hz]

theorem canon_get_value {V : Type} {cap : Nat} {L : List (Nat × V)}
    {h : ComponentHistory V} (hc : IsCanon cap L h) {p : Nat × V} (hp : p ∈ L) :
    h.get p.1 = TickData.Value p.2 := by
  obtain ⟨hne, hsort, hcap1, hcap64, hspan, hlast, hlen, hrm, hcap, hmask,
    hdata, hilen, hicap⟩ := hc
  have hfle := firstTick_le_lastTick L hsort hne
  have hple := le_lastTick L hsort p hp
  have hpge := firstTick_le L hsort p hp
  simp only [ComponentHistory.get, SparseBlobDeque.get, BlobDeque.get]
  rw [hlast, hlen, hrm, hmask, hdata, hilen]
  rw [if_neg (show ¬ lastTick L < p.1 by omega)]
  rw [if_neg (show ¬ (lastTick L - firstTick L + 1 ≤ lastTick L - p.1) by omega)]
  rw [if_neg (show ¬ (0 &&& 1 <<< (lastTick L - p.1) ≠ 0) by
    rw [Nat.zero_and]; omega)]
  rw [if_neg (show ¬ (lastTick L - firstTick L + 1 ≤
      lastTick L - firstTick L + 1 - 1 - (lastTick L - p.1)) by omega)]
  have he : lastTick L - firstTick L + 1 - 1 -
      (lastTick L - firstTick L + 1 - 1 - (lastTick L - p.1)) = lastTick L - p.1 := by
    omega
  rw [he]
  have hnd := nodup_exps hsort (le_lastTick L hsort)
  have hmem : (lastTick L - p.1) ∈ (L.map fun q => lastTick L - q.1) :=
    List.mem_map.mpr ⟨p, hp, rfl⟩
  have hnz : ¬ (maskOf (L.map fun q => lastTick L - q.1) &&&
      (1 <<< (lastTick L - p.1)) = 0) := by
    rw [Nat.one_shiftLeft, and_two_pow_eq_zero_iff, testBit_maskOf hnd]
    simp [hmem]
  rw [if_neg hnz]
  have hexp : ∀ q ∈ L, lastTick L - q.1 < 64 := by
    intro q hq
    have h1 := firstTick_le L hsort q hq
    omega
  rw [countOnes_maskOf_and_high hsort (le_lastTick L hsort) hexp hple
    (by have h9 := hexp p hp; omega)]
  have hflen : (L.filter fun q => decide (q.1 ≤ p.1)).length ≤ L.length :=
    List.length_filter_le _ _
  have hfpos : 0 < (L.filter fun q => decide (q.1 ≤ p.1)).length :=
    List.length_pos_of_mem (List.mem_filter.mpr ⟨hp, by simp⟩)
  rw [if_neg (show ¬ (L.length <
      (L.filter fun q => decide (q.1 ≤ p.1)).length - 1 + 1) by omega)]
  rw [sorted_getElem_filter_le L hsort p hp]

/-! ### Write steps on canonical histories -/

theorem wshl64_zero (s : Nat) : wshl64 0 s = 0 := by
  unfold wshl64
  simp

theorem and_two_pow_eq_zero_of_lt {x e : Nat} (hx : x < 2 ^ e) :
    x &&& (1 <<< e) = 0 := by
  rw [Nat.one_shiftLeft, and_two_pow_eq_zero_iff]
  exact Nat.testBit_lt_two_pow hx

theorem and_not64_low_eq_zero {x e : Nat} (hx : x < 2 ^ e) (he : e ≤ 64) :
    x &&& not64 (2 ^ e - 1) = 0 := by
  have hsm : (2 : Nat) ^ e - 1 < 2 ^ 64 := by
    have ha : (2 : Nat) ^ e ≤ 2 ^ 64 := Nat.pow_le_pow_right (by omega) he
    have hb : (0 : Nat) < 2 ^ e := Nat.pos_pow_of_pos e (by omega)
    omega
  apply Nat.eq_of_testBit_eq
  intro i
  rw [Nat.testBit_and, testBit_not64 hsm, Nat.testBit_two_pow_sub_one,
    Nat.zero_testBit]
  by_cases hie : i < e
  · simp [hie]
  · have hxb : x.testBit i = false :=
      Nat.testBit_lt_two_pow
        (Nat.lt_of_lt_of_le hx (Nat.pow_le_pow_right (by omega) (by omega)))
    simp [hxb]

theorem and_sub_one_eq_self_of_lt {x e : Nat} (hx : x < 2 ^ e) :
    x &&& ((1 <<< e) - 1) = x := by
  rw [Nat.one_shiftLeft, and_two_pow_sub_one, Nat.mod_eq_of_lt hx]

theorem maskOf_ne_zero_of_mem {e : Nat} {es : List Nat} (hnd : es.Nodup)
    (he : e ∈ es) : maskOf es ≠ 0 := by
  intro h0
  have hb := testBit_maskOf hnd e
  rw [h0, Nat.zero_testBit] at hb
  simp [he] at hb

theorem and_eq_zero_of_high_range {x k M : Nat} (hx : x < 2 ^ k)
    (hM : ∀ i, i < k → M.testBit i = false) : x &&& M = 0 := by
  apply Nat.eq_of_testBit_eq
  intro i
  rw [Nat.testBit_and, Nat.zero_testBit]
  by_cases hik : i < k
  · simp [hM i hik]
  · have hxb : x.testBit i = false :=
      Nat.testBit_lt_two_pow
        (Nat.lt_of_lt_of_le hx (Nat.pow_le_pow_right (by omega) (by omega)))
    simp [hxb]

theorem and_not64_eq_self_of_high_range {x k M : Nat} (hx : x < 2 ^ k)
    (hk : k ≤ 64) (hM64 : M < 2 ^ 64)
    (hM : ∀ i, i < k → M.testBit i = false) : x &&& not64 M = x := by
  apply Nat.eq_of_testBit_eq
  intro i
  rw [Nat.testBit_and, testBit_not64 hM64]
  by_cases hik : i < k
  · simp [hM i hik]
    omega
  · have hxb : x.testBit i = false :=
      Nat.testBit_lt_two_pow
        (Nat.lt_of_lt_of_le hx (Nat.pow_le_pow_right (by omega) (by omega)))
    simp [hxb]

theorem SparseBlobDeque.replace_insert_spec {V : Type} (s : SparseBlobDeque V)
    (index : Nat) (v : V)
    (h1 : ¬ s.len ≤ index)
    (hbit : s.mask &&& (1 <<< (s.len - 1 - index)) = 0)
    (hlow : s.mask &&& ((1 <<< (s.len - 1 - index)) - 1) ≠ 0)
    (hlen64 : s.len ≤ 64)
    (hicap : s.items.len ≤ s.items.capacity)
    (hcnt : countOnes (s.mask &&& not64 ((1 <<< (s.len - 1 - index)) - 1)) ≤
      s.items.len) :
    ∃ b' : BlobDeque V,
      s.replace index v =
        { s with mask := s.mask ||| (1 <<< (s.len - 1 - index)), items := b' } ∧
      b'.len = s.items.len + 1 ∧
      s.items.len + 1 ≤ b'.capacity ∧
      b'.data = s.items.data.insertIdx
        (countOnes (s.mask &&& not64 ((1 <<< (s.len - 1 - index)) - 1))) v := by
  have h2e : (1 : Nat) <<< (s.len - 1 - index) = 2 ^ (s.len - 1 - index) :=
    Nat.one_shiftLeft _
  have hsm64 : (2 : Nat) ^ (s.len - 1 - index) - 1 < 2 ^ 64 := by
    have ha : (2 : Nat) ^ (s.len - 1 - index) ≤ 2 ^ 64 :=
      Nat.pow_le_pow_right (by omega) (by omega)
    have hb : (0 : Nat) < 2 ^ (s.len - 1 - index) :=
      Nat.pos_pow_of_pos _ (by omega)
    omega
  have hb2 : ¬ s.mask &&& (1 <<< (s.len - 1 - index)) ≠ 0 := by omega
  have h3 : ¬ s.mask &&& not64 (not64 ((1 <<< (s.len - 1 - index)) - 1)) = 0 := by
    rw [h2e, not64_not64 hsm64, ← h2e]
    exact hlow
  rw [SparseBlobDeque.replace_spec_insert s index v h1 hb2 h3]
  by_cases hresz : s.items.len = s.items.capacity
  · rw [if_pos hresz,
      BlobDeque.resize_grow s.items (s.items.capacity + 1) (by omega) (by omega)]
    obtain ⟨b', hins, hb1, hb2', hb3⟩ := BlobDeque.insert_success
      { s.items with capacity := s.items.capacity + 1, start := 0 }
      (countOnes (s.mask &&& not64 ((1 <<< (s.len - 1 - index)) - 1))) v
      (by simp only; omega) (by simp only; omega)
    rw [hins]
    have hb1' : b'.len = s.items.len + 1 := hb1
    have hb2'' : b'.capacity = s.items.capacity + 1 := hb2'
    have hb3' : b'.data = s.items.data.insertIdx
        (countOnes (s.mask &&& not64 ((1 <<< (s.len - 1 - index)) - 1))) v := hb3
    exact ⟨b', rfl, hb1', by rw [hb2'']; omega, hb3'⟩
  · rw [if_neg hresz]
    obtain ⟨b', hins, hb1, hb2', hb3⟩ := BlobDeque.insert_success s.items
      (countOnes (s.mask &&& not64 ((1 <<< (s.len - 1 - index)) - 1))) v hresz
      (by omega)
    rw [hins]
    refine ⟨b', rfl, hb1, ?_, hb3⟩
    rw [hb2']
    omega

theorem canon_fill_gaps {V : Type} {cap : Nat} {L : List (Nat × V)}
    {h : ComponentHistory V} (hc : IsCanon cap L h) {t : Nat}
    (hgt : lastTick L < t) (hs1 : t - firstTick L < cap) :
    ∃ s : SparseBlobDeque V,
      h.fill_gaps t = { h with list := s, removed_mask := 0, last_tick := t - 1 } ∧
      s.mask = maskOf (L.map fun q => t - 1 - q.1) ∧
      s.len = t - 1 - firstTick L + 1 ∧
      s.capacity = cap ∧
      s.items = h.list.items := by
  obtain ⟨hne, hsort, hcap1, hcap64, hspan, hlast, hlen, hrm, hcap, hmask,
    hdata, hilen, hicap⟩ := hc
  have hfle := firstTick_le_lastTick L hsort hne
  by_cases ht1 : t ≤ h.last_tick + 1
  · have ht1' : t = lastTick L + 1 := by
      rw [hlast] at ht1
      omega
    refine ⟨h.list, ?_, ?_, ?_, hcap, rfl⟩
    · rw [ComponentHistory.fill_gaps_le h t ht1]
      obtain ⟨rm, lst, ltk⟩ := h
      have hrm : rm = 0 := hrm
      have hlast : ltk = lastTick L := hlast
      subst hrm
      subst hlast
      show (⟨0, lst, lastTick L⟩ : ComponentHistory V) = ⟨0, lst, t - 1⟩
      rw [show (t : Nat) - 1 = lastTick L by omega]
    · rw [show (t : Nat) - 1 = lastTick L by omega]
      exact hmask
    · rw [show (t : Nat) - 1 = lastTick L by omega]
      exact hlen
  · have hnor : ¬ (h.list.len = 0 ∨ t ≤ h.last_tick + 1) := by
      intro hor
      rcases hor with h5 | h5
      · rw [hlen] at h5
        omega
      · exact ht1 h5
    rw [hlast] at ht1
    have hgap : ¬ (h.list.capacity ≤ t - 1 - h.last_tick) := by
      rw [hcap, hlast]
      omega
    have hmv : ¬ (h.list.capacity < h.list.len + (t - 1 - h.last_tick)) := by
      rw [hcap, hlen, hlast]
      omega
    have hnd := nodup_exps hsort (le_lastTick L hsort)
    have hml : maskOf (L.map fun q => lastTick L - q.1) <
        2 ^ (lastTick L - firstTick L + 1) := by
      refine maskOf_lt hnd ?_
      intro e he
      obtain ⟨q, hq, hqe⟩ := List.mem_map.mp he
      have h6 := firstTick_le L hsort q hq
      omega
    have hmlist : h.list.mask < 2 ^ (lastTick L - firstTick L + 1) := by
      rw [hmask]
      exact hml
    have hsmbit : ∀ i, i < lastTick L - firstTick L + 1 →
        (wshl64 ((1 <<< (t - 1 - h.last_tick)) - 1)
          (h.list.capacity - (t - 1 - h.last_tick))).testBit i = false := by
      intro i hi
      rw [hlast, hcap]
      rw [testBit_range_mask (by omega) hcap64]
      simp
      omega
    have hsm0 : h.list.mask &&& wshl64 ((1 <<< (t - 1 - h.last_tick)) - 1)
        (h.list.capacity - (t - 1 - h.last_tick)) = 0 :=
      and_eq_zero_of_high_range hmlist hsmbit
    have hsmself : h.list.mask &&& not64 (wshl64 ((1 <<< (t - 1 - h.last_tick)) - 1)
        (h.list.capacity - (t - 1 - h.last_tick))) = h.list.mask :=
      and_not64_eq_self_of_high_range hmlist (by omega) (wshl64_lt _ _) hsmbit
    have hdf0 : ∀ b : BlobDeque V, b.drop_front_n 0 = b := fun b => rfl
    have heb : h.list.extend_back (t - 1 - h.last_tick) =
        { h.list with
          items := h.list.items,
          mask := wshl64 h.list.mask (t - 1 - h.last_tick),
          len := rmin (h.list.len + (t - 1 - h.last_tick)) h.list.capacity } := by
      rw [SparseBlobDeque.extend_back_spec_lt h.list _ hgap]
      rw [hsm0, countOnes_zero, hdf0, hsmself]
    have hmask' : wshl64 h.list.mask (t - 1 - h.last_tick) =
        maskOf (L.map fun q => t - 1 - q.1) := by
      rw [hmask, hlast]
      have hm64 : maskOf (L.map fun q => lastTick L - q.1) < 2 ^ 64 :=
        Nat.lt_of_lt_of_le hml (Nat.pow_le_pow_right (by omega) (by omega))
      have hshl : maskOf (L.map fun q => lastTick L - q.1) <<<
          (t - 1 - lastTick L) < 2 ^ 64 := by
        rw [Nat.shiftLeft_eq]
        have h2 : maskOf (L.map fun q => lastTick L - q.1) * 2 ^ (t - 1 - lastTick L) <
            2 ^ (lastTick L - firstTick L + 1) * 2 ^ (t - 1 - lastTick L) :=
          (Nat.mul_lt_mul_right (Nat.pos_pow_of_pos _ (by omega))).mpr hml
        have h3 : (2 : Nat) ^ (lastTick L - firstTick L + 1) * 2 ^ (t - 1 - lastTick L) =
            2 ^ (lastTick L - firstTick L + 1 + (t - 1 - lastTick L)) := by
          rw [← pow_add]
        have h4 : (2 : Nat) ^ (lastTick L - firstTick L + 1 + (t - 1 - lastTick L)) ≤
            2 ^ 64 := Nat.pow_le_pow_right (by omega) (by omega)
        omega
      rw [wshl64_eq_shiftLeft hm64 (by omega) hshl]
      rw [Nat.shiftLeft_eq, Nat.mul_comm, ← maskOf_map_add, List.map_map]
      refine congrArg maskOf (List.map_congr_left ?_)
      intro q hq
      have h6 := le_lastTick L hsort q hq
      show lastTick L - q.1 + (t - 1 - lastTick L) = t - 1 - q.1
      omega
    have hlen' : rmin (h.list.len + (t - 1 - h.last_tick)) h.list.capacity =
        t - 1 - firstTick L + 1 := by
      rw [hlen, hlast, hcap, rmin_eq_left (by omega)]
      omega
    refine ⟨h.list.extend_back (t - 1 - h.last_tick), ?_, ?_, ?_, ?_, ?_⟩
    · simp only [ComponentHistory.fill_gaps]
      rw [if_neg hnor, if_neg hgap, if_neg hmv]
      dsimp only
      rw [hrm, wshl64_zero, hlast, show lastTick L + (t - 1 - lastTick L) = t - 1
        by omega]
    · rw [heb]
      exact hmask'
    · rw [heb]
      exact hlen'
    · rw [heb]
      exact hcap
    · rw [heb]

theorem canon_write_back {V : Type} {cap : Nat} {L : List (Nat × V)}
    {h : ComponentHistory V} (hc : IsCanon cap L h) {t : Nat} (v : V)
    (hgt : lastTick L < t) (hs1 : t - firstTick L < cap) :
    IsCanon cap (L ++ [(t, v)]) (h.write t v) := by
  obtain ⟨s, hfg, hsm, hsl, hsc, hsi⟩ := canon_fill_gaps hc hgt hs1
  obtain ⟨hne, hsort, hcap1, hcap64, hspan, hlast, hlen, hrm, hcap, hmask,
    hdata, hilen, hicap⟩ := hc
  have hfle := firstTick_le_lastTick L hsort hne
  have hlenle := length_le_span L hsort hne
  have hicapS : s.items.len ≤ s.items.capacity := by
    rw [hsi]
    exact hicap
  have hilenS : s.items.len = L.length := by
    rw [hsi]
    exact hilen
  have hsne : s.len ≠ s.capacity := by
    rw [hsl, hsc]
    omega
  have hlast2 : lastTick (L ++ [(t, v)]) = t := lastTick_append_single (t, v) L
  have hfirst2 : firstTick (L ++ [(t, v)]) = firstTick L :=
    firstTick_append_single (t, v) L hne
  have hsort2 : List.Pairwise (fun a b : Nat × V => a.1 < b.1) (L ++ [(t, v)]) := by
    rw [List.pairwise_append]
    refine ⟨hsort, by simp, ?_⟩
    intro a ha b hb
    rw [List.mem_singleton] at hb
    subst hb
    have h6 := le_lastTick L hsort a ha
    show a.1 < t
    omega
  have hbA : ∀ q ∈ L, q.1 ≤ t - 1 := fun q hq => by
    have h6 := le_lastTick L hsort q hq
    omega
  have hmaskS : ((s.mask <<< 1) % 2 ^ 64) ||| 1 =
      maskOf ((L ++ [(t, v)]).map fun q => lastTick (L ++ [(t, v)]) - q.1) := by
    rw [hlast2, hsm]
    have hmlA : maskOf (L.map fun q => t - 1 - q.1) <
        2 ^ (t - 1 - firstTick L + 1) := by
      refine maskOf_lt (nodup_exps hsort hbA) ?_
      intro e he
      obtain ⟨q, hq, hqe⟩ := List.mem_map.mp he
      have h6 := firstTick_le L hsort q hq
      omega
    have hm64A : maskOf (L.map fun q => t - 1 - q.1) <<< 1 < 2 ^ 64 := by
      rw [Nat.shiftLeft_eq, pow_one]
      have h4 : (2 : Nat) ^ (t - 1 - firstTick L + 1 + 1) =
          2 ^ (t - 1 - firstTick L + 1) * 2 := pow_succ 2 _
      have h5 : (2 : Nat) ^ (t - 1 - firstTick L + 1 + 1) ≤ 2 ^ 64 :=
        Nat.pow_le_pow_right (by omega) (by omega)
      omega
    rw [Nat.mod_eq_of_lt hm64A]
    have hshift : maskOf (L.map fun q => t - 1 - q.1) <<< 1 =
        maskOf (L.map fun q => t - q.1) := by
      rw [Nat.shiftLeft_eq, Nat.mul_comm, ← maskOf_map_add, List.map_map]
      refine congrArg maskOf (List.map_congr_left ?_)
      intro q hq
      have h6 := le_lastTick L hsort q hq
      show t - 1 - q.1 + 1 = t - q.1
      omega
    rw [hshift]
    have h0mem : (0 : Nat) ∉ (L.map fun q => t - q.1) := by
      intro hmem
      obtain ⟨q, hq, hqe⟩ := List.mem_map.mp hmem
      have h6 := le_lastTick L hsort q hq
      omega
    have hndB : (L.map fun q => t - q.1).Nodup :=
      nodup_exps hsort (fun q hq => by
        have h6 := le_lastTick L hsort q hq
        omega)
    have h7 := maskOf_lor_two_pow hndB h0mem
    have h8 : maskOf (L.map fun q => t - q.1) ||| 1 =
        maskOf (0 :: L.map fun q => t - q.1) := h7
    rw [h8, List.map_append, maskOf_append]
    show 2 ^ 0 + maskOf (L.map fun q => t - q.1) =
      maskOf (L.map fun q => t - q.1) + (2 ^ (t - t) + 0)
    rw [Nat.sub_self]
    omega
  have hdataS : s.items.data ++ [v] = (L ++ [(t, v)]).map Prod.snd := by
    rw [hsi, hdata, List.map_append]
    rfl
  simp only [ComponentHistory.write]
  rw [hfg]
  dsimp only
  rw [if_neg (show ¬ (s.len ≠ 0 ∧ t ≤ t - 1) by omega)]
  rw [if_neg (show ¬ (s.capacity = s.len) by rw [hsc, hsl]; omega)]
  dsimp only
  rw [wshl64_zero, SparseBlobDeque.append_spec_some s v hsne]
  by_cases hresz : s.items.capacity = s.items.len ∧ s.items.capacity ≠ s.capacity
  · rw [if_pos hresz,
      BlobDeque.resize_grow s.items (s.items.capacity + 1) (by omega) (by omega),
      BlobDeque.append_no_evict _ v (by simp only; omega)]
    refine ⟨by simp, hsort2, hcap1, hcap64, ?_, ?_, ?_, rfl, ?_, ?_, ?_, ?_, ?_⟩
    · rw [hlast2, hfirst2]
      omega
    · show t = lastTick (L ++ [(t, v)])
      rw [hlast2]
    · show s.len + 1 = lastTick (L ++ [(t, v)]) - firstTick (L ++ [(t, v)]) + 1
      rw [hlast2, hfirst2, hsl]
      omega
    · show s.capacity = cap
      exact hsc
    · show ((s.mask <<< 1) % 2 ^ 64) ||| 1 =
        maskOf ((L ++ [(t, v)]).map fun q => lastTick (L ++ [(t, v)]) - q.1)
      exact hmaskS
    · show s.items.data ++ [v] = (L ++ [(t, v)]).map Prod.snd
      exact hdataS
    · show s.items.len + 1 = (L ++ [(t, v)]).length
      rw [hilenS, List.length_append]
      rfl
    · show s.items.len + 1 ≤ s.items.capacity + 1
      omega
  · rw [if_neg hresz]
    have hnev : s.items.len ≠ s.items.capacity := by
      intro he
      have h7 : s.items.capacity = s.capacity := by
        by_contra h8
        exact hresz ⟨he.symm, h8⟩
      rw [hsc] at h7
      omega
    rw [BlobDeque.append_no_evict s.items v hnev]
    refine ⟨by simp, hsort2, hcap1, hcap64, ?_, ?_, ?_, rfl, ?_, ?_, ?_, ?_, ?_⟩
    · rw [hlast2, hfirst2]
      omega
    · show t = lastTick (L ++ [(t, v)])
      rw [hlast2]
    · show s.len + 1 = lastTick (L ++ [(t, v)]) - firstTick (L ++ [(t, v)]) + 1
      rw [hlast2, hfirst2, hsl]
      omega
    · show s.capacity = cap
      exact hsc
    · show ((s.mask <<< 1) % 2 ^ 64) ||| 1 =
        maskOf ((L ++ [(t, v)]).map fun q => lastTick (L ++ [(t, v)]) - q.1)
      exact hmaskS
    · show s.items.data ++ [v] = (L ++ [(t, v)]).map Prod.snd
      exact hdataS
    · show s.items.len + 1 = (L ++ [(t, v)]).length
      rw [hilenS, List.length_append]
      rfl
    · show s.items.len + 1 ≤ s.items.capacity
      omega

theorem canon_write_front {V : Type} {cap : Nat} {L : List (Nat × V)}
    {h : ComponentHistory V} (hc : IsCanon cap L h) {t : Nat} (v : V)
    (hlt : t < firstTick L) (hs2 : lastTick L - t < cap) :
    IsCanon cap ((t, v) :: L) (h.write t v) := by
  obtain ⟨hne, hsort, hcap1, hcap64, hspan, hlast, hlen, hrm, hcap, hmask,
    hdata, hilen, hicap⟩ := hc
  have hfle := firstTick_le_lastTick L hsort hne
  rw [ComponentHistory.write_spec_in_window h t v (by rw [hlen]; omega)
    (by rw [hlast]; omega) (by rw [hcap, hlast]; omega)]
  rw [if_pos (show h.list.len ≤ h.last_tick - t by rw [hlen, hlast]; omega)]
  have hmod256 : (h.last_tick - t - (h.list.len - 1)) % 256 =
      h.last_tick - t - (h.list.len - 1) :=
    Nat.mod_eq_of_lt (by rw [hlast, hlen]; omega)
  have hrmin2 : rmin ((h.last_tick - t - (h.list.len - 1)) % 256)
      (h.list.capacity - h.list.len) = h.last_tick - t - (h.list.len - 1) := by
    rw [hmod256]
    refine rmin_eq_left ?_
    rw [hlast, hlen, hcap]
    omega
  have hElen : (h.list.extend_front (h.last_tick - t - (h.list.len - 1))).len =
      lastTick L - t + 1 := by
    show h.list.len + rmin ((h.last_tick - t - (h.list.len - 1)) % 256)
      (h.list.capacity - h.list.len) = lastTick L - t + 1
    rw [hrmin2, hlen, hlast]
    omega
  have hEmask : (h.list.extend_front (h.last_tick - t - (h.list.len - 1))).mask =
      h.list.mask := rfl
  have hEitems : (h.list.extend_front (h.last_tick - t - (h.list.len - 1))).items =
      h.list.items := rfl
  have hEcap : (h.list.extend_front (h.last_tick - t - (h.list.len - 1))).capacity =
      h.list.capacity := rfl
  generalize hE : h.list.extend_front (h.last_tick - t - (h.list.len - 1)) = E
    at hElen hEmask hEitems hEcap ⊢
  have hidx0 : E.len - 1 - (h.last_tick - t) = 0 := by
    rw [hElen, hlast]
    omega
  rw [hidx0]
  have hee : E.len - 1 - 0 = lastTick L - t := by
    rw [hElen]
    omega
  have hnd := nodup_exps hsort (le_lastTick L hsort)
  have hmlt : h.list.mask < 2 ^ (lastTick L - t) := by
    rw [hmask]
    refine maskOf_lt hnd ?_
    intro e he
    obtain ⟨q, hq, hqe⟩ := List.mem_map.mp he
    have h6 := firstTick_le L hsort q hq
    omega
  have hz2 : h.list.mask &&& not64 ((1 <<< (lastTick L - t)) - 1) = 0 := by
    rw [Nat.one_shiftLeft]
    exact and_not64_low_eq_zero hmlt (by omega)
  obtain ⟨p0, hp0, hp0e⟩ := firstTick_mem L hne
  obtain ⟨b', hrep, hb1, hb2, hb3⟩ := SparseBlobDeque.replace_insert_spec E 0 v
    (by rw [hElen]; omega)
    (by rw [hee, hEmask]; exact and_two_pow_eq_zero_of_lt hmlt)
    (by rw [hee, hEmask, and_sub_one_eq_self_of_lt hmlt, hmask]
        exact maskOf_ne_zero_of_mem hnd (List.mem_map.mpr ⟨p0, hp0, rfl⟩))
    (by rw [hElen]; omega)
    (by rw [hEitems]; exact hicap)
    (by rw [hee, hEmask, hz2, countOnes_zero]; omega)
  rw [hrep]
  have hones0 : countOnes (E.mask &&& not64 ((1 <<< (E.len - 1 - 0)) - 1)) = 0 := by
    rw [hee, hEmask, hz2, countOnes_zero]
  rw [hones0] at hb3
  have hlastC : lastTick ((t, v) :: L) = lastTick L := lastTick_cons (t, v) L hne
  have hfirstC : firstTick ((t, v) :: L) = t := rfl
  have hsortC : List.Pairwise (fun a b : Nat × V => a.1 < b.1) ((t, v) :: L) := by
    refine List.Pairwise.cons ?_ hsort
    intro q hq
    have h6 := firstTick_le L hsort q hq
    show t < q.1
    omega
  have hnm : (lastTick L - t) ∉ (L.map fun q => lastTick L - q.1) := by
    intro hmem
    obtain ⟨q, hq, hqe⟩ := List.mem_map.mp hmem
    have h6 := firstTick_le L hsort q hq
    have h7 := le_lastTick L hsort q hq
    omega
  refine ⟨by simp, hsortC, hcap1, hcap64, ?_, ?_, ?_, hrm, ?_, ?_, ?_, ?_, ?_⟩
  · rw [hlastC, hfirstC]
    omega
  · show h.last_tick = lastTick ((t, v) :: L)
    rw [hlastC, hlast]
  · show E.len = lastTick ((t, v) :: L) - firstTick ((t, v) :: L) + 1
    rw [hlastC, hfirstC, hElen]
  · show E.capacity = cap
    rw [hEcap, hcap]
  · show E.mask ||| (1 <<< (E.len - 1 - 0)) =
      maskOf (((t, v) :: L).map fun q => lastTick ((t, v) :: L) - q.1)
    rw [hee, hEmask, hlastC, hmask, Nat.one_shiftLeft,
      maskOf_lor_two_pow hnd hnm]
    rfl
  · show b'.data = ((t, v) :: L).map Prod.snd
    rw [hb3, hEitems, hdata]
    rfl
  · show b'.len = ((t, v) :: L).length
    rw [hb1, hEitems, hilen]
    rfl
  · show b'.len ≤ b'.capacity
    rw [hb1]
    exact hb2

theorem firstTick_insertPair_ge {V : Type} (p : Nat × V) (L : List (Nat × V))
    (h : L ≠ []) (hge : firstTick L ≤ p.1) :
    firstTick (insertPair p L) = firstTick L := by
  cases L with
  | nil => exact absurd rfl h
  | cons q qs =>
    rw [firstTick_insertPair]
    have hge' : q.1 ≤ p.1 := hge
    show rmin p.1 q.1 = q.1
    rw [rmin_eq_right hge']

theorem canon_write_mid {V : Type} {cap : Nat} {L : List (Nat × V)}
    {h : ComponentHistory V} (hc : IsCanon cap L h) {t : Nat} (v : V)
    (hgtf : firstTick L < t) (hltl : t < lastTick L)
    (hfresh : t ∉ L.map Prod.fst) :
    IsCanon cap (insertPair (t, v) L) (h.write t v) := by
  obtain ⟨hne, hsort, hcap1, hcap64, hspan, hlast, hlen, hrm, hcap, hmask,
    hdata, hilen, hicap⟩ := hc
  have hfle := firstTick_le_lastTick L hsort hne
  have hfr : ∀ q ∈ L, q.1 ≠ t := by
    intro q hq he
    exact hfresh (List.mem_map.mpr ⟨q, hq, he⟩)
  rw [ComponentHistory.write_spec_in_window h t v (by rw [hlen]; omega)
    (by rw [hlast]; omega) (by rw [hcap, hlast]; omega)]
  rw [if_neg (show ¬ h.list.len ≤ h.last_tick - t by rw [hlen, hlast]; omega)]
  have hee : h.list.len - 1 - (h.list.len - 1 - (h.last_tick - t)) =
      lastTick L - t := by
    rw [hlen, hlast]
    omega
  have hnd := nodup_exps hsort (le_lastTick L hsort)
  have hexp : ∀ q ∈ L, lastTick L - q.1 < 64 := by
    intro q hq
    have h6 := firstTick_le L hsort q hq
    omega
  have hnm : (lastTick L - t) ∉ (L.map fun q => lastTick L - q.1) := by
    intro hmem
    obtain ⟨q, hq, hqe⟩ := List.mem_map.mp hmem
    have h6 := le_lastTick L hsort q hq
    exact hfr q hq (by omega)
  obtain ⟨pl, hpl, hple⟩ := lastTick_mem L hne
  have hones : countOnes (h.list.mask &&& not64 ((1 <<< (h.list.len - 1 -
      (h.list.len - 1 - (h.last_tick - t)))) - 1)) =
      (L.filter fun q => decide (q.1 ≤ t)).length := by
    rw [hee, hmask]
    exact countOnes_maskOf_and_high hsort (le_lastTick L hsort) hexp
      (by omega) (by omega)
  obtain ⟨b', hrep, hb1, hb2, hb3⟩ := SparseBlobDeque.replace_insert_spec h.list
    (h.list.len - 1 - (h.last_tick - t)) v
    (by rw [hlen, hlast]; omega)
    (by rw [hee, hmask, Nat.one_shiftLeft, and_two_pow_eq_zero_iff,
          testBit_maskOf hnd]
        simp [hnm])
    (by rw [hee, hmask, Nat.one_shiftLeft, maskOf_and_low hnd (by omega)]
        refine maskOf_ne_zero_of_mem (hnd.filter _) (List.mem_filter.mpr
          ⟨List.mem_map.mpr ⟨pl, hpl, rfl⟩, ?_⟩)
        simp
        omega)
    (by rw [hlen]; omega)
    hicap
    (by rw [hones, hilen]; exact List.length_filter_le _ _)
  rw [hrep]
  have hlastI : lastTick (insertPair (t, v) L) = lastTick L :=
    lastTick_insertPair_le (t, v) L hne (by show t ≤ lastTick L; omega)
  have hfirstI : firstTick (insertPair (t, v) L) = firstTick L :=
    firstTick_insertPair_ge (t, v) L hne (by show firstTick L ≤ t; omega)
  have hsortI := pairwise_insertPair (t, v) L hsort (fun q hq => hfr q hq)
  refine ⟨insertPair_ne_nil (t, v) L, hsortI, hcap1, hcap64, ?_, ?_, ?_, hrm,
    ?_, ?_, ?_, ?_, ?_⟩
  · rw [hlastI, hfirstI]
    omega
  · show h.last_tick = lastTick (insertPair (t, v) L)
    rw [hlastI, hlast]
  · show h.list.len = lastTick (insertPair (t, v) L) -
      firstTick (insertPair (t, v) L) + 1
    rw [hlastI, hfirstI, hlen]
  · show h.list.capacity = cap
    exact hcap
  · show h.list.mask ||| (1 <<< (h.list.len - 1 -
        (h.list.len - 1 - (h.last_tick - t)))) =
      maskOf ((insertPair (t, v) L).map fun q => lastTick (insertPair (t, v) L) - q.1)
    rw [hee, hlastI, hmask, Nat.one_shiftLeft, maskOf_lor_two_pow hnd hnm]
    exact maskOf_perm
      ((insertPair_perm (t, v) L).map (fun q : Nat × V => lastTick L - q.1)).symm
  · show b'.data = (insertPair (t, v) L).map Prod.snd
    rw [hb3, hones, hdata, map_snd_insertPair (t, v) L hsort hfr]
    have hfeq : (L.filter fun q => decide (q.1 ≤ t)) =
        L.filter fun q => decide (q.1 < (t, v).1) := by
      refine List.filter_congr ?_
      intro q hq
      have h6 := hfr q hq
      show decide (q.1 ≤ t) = decide (q.1 < t)
      exact decide_eq_decide.mpr (by omega)
    rw [hfeq]
  · show b'.len = (insertPair (t, v) L).length
    rw [hb1, hilen, insertPair_length]
  · show b'.len ≤ b'.capacity
    rw [hb1]
    exact hb2

/-! ### Helper facts about single operations -/

theorem wshl64_one_and_one (r : Nat) : wshl64 r 1 &&& 1 = 0 := by
  rw [Nat.and_one_is_mod]
  unfold wshl64
  rw [Nat.shiftLeft_eq]
  norm_num

theorem write_on_empty {V : Type} (h : ComponentHistory V) (t : Nat) (v : V)
    (hlen : h.list.len = 0) (hcap : h.list.capacity ≠ 0) :
    h.write t v =
      { removed_mask := wshl64 h.removed_mask 1,
        list := h.list.append (some v), last_tick := t } := by
  unfold ComponentHistory.write
  have hfg : h.fill_gaps t = h := by
    unfold ComponentHistory.fill_gaps
    rw [if_pos (Or.inl hlen)]
  rw [hfg]
  have hcond : ¬ (h.list.len ≠ 0 ∧ t ≤ h.last_tick) := by simp [hlen]
  rw [if_neg hcond, if_neg (by rw [hlen]; exact hcap)]

theorem sbd_append_some_on_empty {V : Type} (s : SparseBlobDeque V) (v : V)
    (hlen : s.len = 0) (hcap : s.capacity ≠ 0) (hmask : s.mask = 0)
    (hilen : s.items.len = 0) (hidata : s.items.data = []) :
    (s.append (some v)).len = 1 ∧ (s.append (some v)).mask = 1 ∧
    (s.append (some v)).capacity = s.capacity ∧
    (s.append (some v)).items.len = 1 ∧ (s.append (some v)).items.data = [v] ∧
    1 ≤ (s.append (some v)).items.capacity := by
  obtain ⟨mask, len, cap, icap, ilen, istart, idata⟩ := s
  simp only at hlen hcap hmask hilen hidata
  subst hlen hmask hilen hidata
  unfold SparseBlobDeque.append
  have h0 : ¬ ((0 : Nat) = cap) := fun hh => hcap hh.symm
  simp only [if_neg h0]
  by_cases hic : icap = 0 ∧ icap ≠ cap
  · simp only [if_pos hic]
    obtain ⟨hic0, _⟩ := hic
    subst hic0
    simp [BlobDeque.resize, BlobDeque.append]
  · simp only [if_neg hic]
    have hic0 : icap ≠ 0 := by
      intro hh
      exact hic ⟨hh, by omega⟩
    simp [BlobDeque.append, hic0, Ne.symm hic0]
    omega

theorem get_of_single {V : Type} (r cap icap istart lt : Nat) (v : V)
    (hrem : r &&& 1 = 0) :
    (⟨r, ⟨1, 1, cap, ⟨icap, 1, istart, [v]⟩⟩, lt⟩ : ComponentHistory V).get lt =
      .Value v := by
  have hc : countOnes (1 &&& not64 (1 <<< (1 - 1 - 0) - 1)) - 1 = 0 := by decide
  have hc2 : countOnes (not64 0 % 2) = 1 := by decide
  simp [ComponentHistory.get, SparseBlobDeque.get, BlobDeque.get, hrem, hc, hc2]

theorem canon_write {V : Type} {cap : Nat} {L : List (Nat × V)}
    {h : ComponentHistory V} (hc : IsCanon cap L h) {t : Nat} (v : V)
    (hfresh : t ∉ L.map Prod.fst)
    (hs1 : t - firstTick L < cap) (hs2 : lastTick L - t < cap) :
    IsCanon cap (insertPair (t, v) L) (h.write t v) := by
  have hne := hc.hne
  have hsort := hc.hsort
  by_cases hgt : lastTick L < t
  · have hbig : ∀ q ∈ L, q.1 < t := by
      intro q hq
      have h6 := le_lastTick L hsort q hq
      omega
    have happ : insertPair (t, v) L = L ++ [(t, v)] :=
      insertPair_of_big (t, v) L hbig
    rw [happ]
    exact canon_write_back hc v hgt hs1
  · by_cases hltf : t < firstTick L
    · have hcons : insertPair (t, v) L = (t, v) :: L := by
        cases L with
        | nil => rfl
        | cons q qs =>
          refine insertPair_of_small (t, v) q qs ?_
          show t < q.1
          exact hltf
      rw [hcons]
      exact canon_write_front hc v hltf hs2
    · obtain ⟨pf, hpf, hpfe⟩ := firstTick_mem L hne
      obtain ⟨pl, hpl, hple⟩ := lastTick_mem L hne
      have hfr : ∀ q ∈ L, q.1 ≠ t := fun q hq he =>
        hfresh (List.mem_map.mpr ⟨q, hq, he⟩)
      have h1 : firstTick L < t := by
        have h2 := hfr pf hpf
        omega
      have h2 : t < lastTick L := by
        have h3 := hfr pl hpl
        omega
      exact canon_write_mid hc v h1 h2 hfresh

theorem canon_first {V : Type} (cap : Nat) (hcap1 : 1 ≤ cap) (hcap64 : cap ≤ 64)
    (t : Nat) (v : V) :
    IsCanon cap [(t, v)] ((ComponentHistory.fresh cap).write t v) := by
  rw [write_on_empty (ComponentHistory.fresh cap) t v rfl
    (show (cap : Nat) ≠ 0 by omega)]
  obtain ⟨h1, h2, h3, h4, h5, h6⟩ := sbd_append_some_on_empty
    (SparseBlobDeque.fresh cap : SparseBlobDeque V) v rfl
    (show (cap : Nat) ≠ 0 by omega) rfl rfl rfl
  refine ⟨by simp, by simp, hcap1, hcap64, ?_, ?_, ?_, ?_, ?_, ?_, ?_, ?_, ?_⟩
  · show t - t < cap
    omega
  · show t = lastTick [(t, v)]
    rfl
  · show ((SparseBlobDeque.fresh cap : SparseBlobDeque V).append (some v)).len =
      lastTick [(t, v)] - firstTick [(t, v)] + 1
    rw [h1]
    show 1 = t - t + 1
    omega
  · exact wshl64_zero 1
  · show ((SparseBlobDeque.fresh cap : SparseBlobDeque V).append (some v)).capacity =
      cap
    rw [h3]
    rfl
  · show ((SparseBlobDeque.fresh cap : SparseBlobDeque V).append (some v)).mask =
      maskOf ([(t, v)].map fun q => lastTick [(t, v)] - q.1)
    rw [h2]
    show (1 : Nat) = maskOf [t - t]
    rw [Nat.sub_self]
    rfl
  · show ((SparseBlobDeque.fresh cap : SparseBlobDeque V).append (some v)).items.data =
      [(t, v)].map Prod.snd
    rw [h5]
    rfl
  · show ((SparseBlobDeque.fresh cap : SparseBlobDeque V).append (some v)).items.len =
      [(t, v)].length
    rw [h4]
    rfl
  · show ((SparseBlobDeque.fresh cap : SparseBlobDeque V).append (some v)).items.len ≤
      ((SparseBlobDeque.fresh cap : SparseBlobDeque V).append (some v)).items.capacity
    rw [h4]
    exact h6

theorem canon_writeAll {V : Type} (cap : Nat) :
    ∀ (P : List (Nat × V)) (C : List (Nat × V)) (h : ComponentHistory V),
      IsCanon cap C h →
      (∀ p ∈ P, p.1 ∉ C.map Prod.fst) →
      (∀ p ∈ P, ∀ q ∈ C, p.1 - q.1 < cap ∧ q.1 - p.1 < cap) →
      (∀ p ∈ P, ∀ q ∈ P, p.1 - q.1 < cap) →
      (P.map Prod.fst).Nodup →
      IsCanon cap (P.foldl (fun acc p => insertPair p acc) C) (writeAll h P) := by
  intro P
  induction P with
  | nil =>
    intro C h hc _ _ _ _
    exact hc
  | cons p ps ih =>
    intro C h hc hfresh hcross hself hnd
    show IsCanon cap (ps.foldl (fun acc p => insertPair p acc) (insertPair p C))
      (writeAll (h.write p.1 p.2) ps)
    refine ih (insertPair p C) (h.write p.1 p.2) ?_ ?_ ?_ ?_ ?_
    · refine canon_write hc p.2 (hfresh p (by simp)) ?_ ?_
      · obtain ⟨pf, hpf, hpfe⟩ := firstTick_mem C hc.hne
        have h7 := (hcross p (by simp) pf hpf).1
        omega
      · obtain ⟨pl, hpl, hple⟩ := lastTick_mem C hc.hne
        have h7 := (hcross p (by simp) pl hpl).2
        omega
    · intro q hq hmem
      have hmem' := ((insertPair_perm p C).map Prod.fst).mem_iff.mp hmem
      rw [List.map_cons] at hmem'
      rcases List.mem_cons.mp hmem' with he | he
      · rw [List.map_cons, List.nodup_cons] at hnd
        exact hnd.1 (List.mem_map.mpr ⟨q, hq, he⟩)
      · exact hfresh q (by simp [hq]) he
    · intro a ha q hq
      have hq' := (insertPair_perm p C).mem_iff.mp hq
      rcases List.mem_cons.mp hq' with he | he
      · subst he
        exact ⟨hself a (by simp [ha]) q (by simp), hself q (by simp) a (by simp [ha])⟩
      · exact hcross a (by simp [ha]) q he
    · intro a ha q hq
      exact hself a (by simp [ha]) q (by simp [hq])
    · rw [List.map_cons, List.nodup_cons] at hnd
      exact hnd.2

theorem foldl_insert_perm {V : Type} : ∀ (P C : List (Nat × V)),
    (P.foldl (fun acc p => insertPair p acc) C).Perm (C ++ P) := by
  intro P
  induction P with
  | nil =>
    intro C
    simp
  | cons p ps ih =>
    intro C
    show (ps.foldl (fun acc p => insertPair p acc) (insertPair p C)).Perm
      (C ++ p :: ps)
    refine (ih (insertPair p C)).trans ?_
    refine (List.Perm.append_right ps (insertPair_perm p C)).trans ?_
    show (p :: (C ++ ps)).Perm (C ++ p :: ps)
    exact List.Perm.symm List.perm_middle

theorem sorted_unique {V : Type} {A B : List (Nat × V)}
    (hA : List.Pairwise (fun a b : Nat × V => a.1 < b.1) A)
    (hB : List.Pairwise (fun a b : Nat × V => a.1 < b.1) B)
    (hp : A.Perm B) : A = B := by
  haveI : IsAntisymm (Nat × V) (fun a b => a.1 < b.1) :=
    ⟨fun a b h1 h2 => absurd (Nat.lt_trans h1 h2) (Nat.lt_irrefl _)⟩
  exact List.eq_of_perm_of_sorted hp hA hB

theorem canon_run {V : Type} {cap : Nat} {S : List (Nat × V)}
    (hsorted : List.Pairwise (fun a b : Nat × V => a.1 < b.1) S) (hne : S ≠ [])
    (hspan : lastTick S - firstTick S < cap) (hcap1 : 1 ≤ cap)
    (hcap64 : cap ≤ 64) (R : List (Nat × V)) (hperm : R.Perm S) :
    IsCanon cap S (writeAll (ComponentHistory.fresh cap) R) := by
  have hndS : (S.map Prod.fst).Nodup := by
    show List.Pairwise (fun a b => a ≠ b) (S.map Prod.fst)
    rw [List.pairwise_map]
    exact hsorted.imp (fun hab => by omega)
  have hndR : (R.map Prod.fst).Nodup := ((hperm.map Prod.fst).nodup_iff).mpr hndS
  have hmemS : ∀ p ∈ R, firstTick S ≤ p.1 ∧ p.1 ≤ lastTick S := by
    intro p hp
    have hp' := hperm.mem_iff.mp hp
    exact ⟨firstTick_le S hsorted p hp', le_lastTick S hsorted p hp'⟩
  cases R with
  | nil =>
    have hS : S = [] := hperm.symm.eq_nil
    exact absurd hS hne
  | cons r rs =>
    have hc0 : IsCanon cap [r] ((ComponentHistory.fresh cap).write r.1 r.2) :=
      canon_first cap hcap1 hcap64 r.1 r.2
    rw [List.map_cons, List.nodup_cons] at hndR
    have hstep := canon_writeAll cap rs [r]
      ((ComponentHistory.fresh cap).write r.1 r.2) hc0
      (by
        intro p hp hmem
        rw [List.map_cons, List.map_nil, List.mem_singleton] at hmem
        exact hndR.1 (List.mem_map.mpr ⟨p, hp, hmem⟩))
      (by
        intro p hp q hq
        rw [List.mem_singleton] at hq
        subst hq
        have h1 := hmemS p (by simp [hp])
        have h2 := hmemS q (by simp)
        exact ⟨by omega, by omega⟩)
      (by
        intro a ha q hq
        have h1 := hmemS a (by simp [ha])
        have h2 := hmemS q (by simp [hq])
        omega)
      hndR.2
    have hperm2 : (rs.foldl (fun acc p => insertPair p acc) [r]).Perm S := by
      refine (foldl_insert_perm rs [r]).trans ?_
      show ((r :: rs) : List (Nat × V)).Perm S
      exact hperm
    have heq : rs.foldl (fun acc p => insertPair p acc) [r] = S :=
      sorted_unique hstep.hsort hsorted hperm2
    rw [heq] at hstep
    exact hstep

/-! ### Claim theorems (first batch) -/

/-- C3: the spec claims that for every reachable `ComponentHistory` at most
one of the presence bit and the removed bit is set at any position.  The code
violates this: `mark_removed` on a tick that holds a value sets the removed
bit without clearing the presence bit (the source's own
`TODO: Remove item if there was one` marks the missing step).  On a fresh
capacity-5 history, `write(0, 1)` then `mark_removed(0)` leaves bit 0 set in
both masks. -/
theorem c3_mask_overlap_failing_input :
    (((ComponentHistory.fresh 5 : ComponentHistory Nat).write 0 1).mark_removed 0).list.mask = 1 ∧
    (((ComponentHistory.fresh 5 : ComponentHistory Nat).write 0 1).mark_removed 0).removed_mask = 1 := by
  decide

/-- C4 counterexample: the claim says a `write` to an in-window tick discards
a prior removed marker and `get` then returns the new value.  In the code the
removed bit survives the write and shadows the stored value: after
`mark_removed(0)` then `write(0, 7)` on a fresh capacity-5 history, `get(0)`
is `Removed`, not `Value 7`. -/
theorem c4_write_over_removed_counterexample :
    (((ComponentHistory.fresh 5 : ComponentHistory Nat).mark_removed 0).write 0 7).get 0 =
      TickData.Removed := by
  decide

/-- C6: `BlobDeque::insert` fails exactly when the buffer is full
(`len = capacity`) or the position is out of range (`at > len`), and a
failing call leaves every field of the buffer unchanged. -/
theorem c6_insert_failure_iff_and_unchanged {V : Type} (b : BlobDeque V)
    (at' : Nat) (v : V) :
    ((b.insert at' v).1 = none ↔ (b.len = b.capacity ∨ b.len < at')) ∧
    ((b.insert at' v).1 = none → (b.insert at' v).2 = b) := by
  unfold BlobDeque.insert
  by_cases h : b.len = b.capacity ∨ b.len < at'
  · simp [h]
  · simp [h]

/-- C6 witness: inserting into a full one-slot buffer fails and leaves the
buffer unchanged. -/
theorem c6_witness :
    ((⟨1, 1, 0, [5]⟩ : BlobDeque Nat).insert 0 7).1 = none ∧
    ((⟨1, 1, 0, [5]⟩ : BlobDeque Nat).insert 0 7).2 = ⟨1, 1, 0, [5]⟩ := by
  have h := c6_insert_failure_iff_and_unchanged (⟨1, 1, 0, [5]⟩ : BlobDeque Nat) 0 7
  have hfail := h.1.mpr (Or.inl rfl)
  exact ⟨hfail, h.2 hfail⟩

/-- C7: on a fresh capacity-5 history, `mark_removed(0)` then `write(5, 1)`
relocates the removed fact to tick 1: `get(1) = Removed`,
`get(5) = Value 1`, and ticks 0, 2, 3, 4 are `Missing`. -/
theorem c7_removed_relocation_scenario :
    (((ComponentHistory.fresh 5 : ComponentHistory Nat).mark_removed 0).write 5 1).get 1 =
      TickData.Removed ∧
    (((ComponentHistory.fresh 5 : ComponentHistory Nat).mark_removed 0).write 5 1).get 5 =
      TickData.Value 1 ∧
    (((ComponentHistory.fresh 5 : ComponentHistory Nat).mark_removed 0).write 5 1).get 0 =
      TickData.Missing ∧
    (((ComponentHistory.fresh 5 : ComponentHistory Nat).mark_removed 0).write 5 1).get 2 =
      TickData.Missing ∧
    (((ComponentHistory.fresh 5 : ComponentHistory Nat).mark_removed 0).write 5 1).get 3 =
      TickData.Missing ∧
    (((ComponentHistory.fresh 5 : ComponentHistory Nat).mark_removed 0).write 5 1).get 4 =
      TickData.Missing := by
  decide

/-- C8 counterexample: the claim asserts `empty_after(tick) = 64` for every
history and every `tick ≥ last_tick`, but on an empty history (where
`tick ≥ last_tick = 0` holds for every tick) the function returns 0 via its
early `is_empty` exit. -/
theorem c8_empty_history_counterexample :
    (ComponentHistory.fresh 5 : ComponentHistory Nat).last_tick ≤ 0 ∧
    (ComponentHistory.fresh 5 : ComponentHistory Nat).empty_after 0 = 0 := by
  decide

/-- C8 amended: for every history whose window is nonempty, `empty_after`
returns 64 at every tick at or beyond `last_tick`. -/
theorem c8_empty_after_at_or_beyond_last {V : Type} (h : ComponentHistory V)
    (tick : Nat) (hne : h.list.len ≠ 0) (htick : h.last_tick ≤ tick) :
    h.empty_after tick = 64 := by
  unfold ComponentHistory.empty_after
  rw [if_neg hne, if_pos htick]

/-- C8 witness: a nonempty history with `last_tick = 3` reports 64 trailing
empties at tick 5. -/
theorem c8_witness :
    (((ComponentHistory.fresh 5 : ComponentHistory Nat).write 3 1).empty_after 5) = 64 :=
  c8_empty_after_at_or_beyond_last _ 5 (by decide) (by decide)

/-- C9: `write` on a history with logical length 0 (as left by a clearing
`clean`) appends exactly one slot holding the value and sets `last_tick` to
the written tick — even when that tick is older than the current
`last_tick`, so the write is not dropped and `last_tick` moves backward. -/
theorem c9_write_on_empty_history {V : Type} (h : ComponentHistory V)
    (t : Nat) (v : V)
    (hlen : h.list.len = 0) (hmask : h.list.mask = 0)
    (hilen : h.list.items.len = 0) (hidata : h.list.items.data = [])
    (hcap : 1 ≤ h.list.capacity) :
    (h.write t v).list.len = 1 ∧ (h.write t v).last_tick = t ∧
    (h.write t v).get t = .Value v := by
  have hcap' : h.list.capacity ≠ 0 := by omega
  rw [write_on_empty h t v hlen hcap']
  obtain ⟨h1, h2, h3, h4, h5, h6⟩ :=
    sbd_append_some_on_empty h.list v hlen hcap' hmask hilen hidata
  refine ⟨h1, rfl, ?_⟩
  generalize hE : h.list.append (some v) = s at h1 h2 h4 h5 ⊢
  obtain ⟨mask', len', cap', icap', ilen', istart', idata'⟩ := s
  simp only at h1 h2 h4 h5
  subst h1 h2 h4 h5
  exact get_of_single _ _ _ _ _ v (wshl64_one_and_one _)

/-- C9 witness: on an emptied history whose `last_tick` is still 10, writing
tick 3 stores the value and moves `last_tick` back to 3. -/
theorem c9_witness :
    ((⟨0, ⟨0, 0, 5, ⟨1, 0, 0, []⟩⟩, 10⟩ : ComponentHistory Nat).write 3 7).list.len = 1 ∧
    ((⟨0, ⟨0, 0, 5, ⟨1, 0, 0, []⟩⟩, 10⟩ : ComponentHistory Nat).write 3 7).last_tick = 3 ∧
    ((⟨0, ⟨0, 0, 5, ⟨1, 0, 0, []⟩⟩, 10⟩ : ComponentHistory Nat).write 3 7).get 3 = .Value 7 :=
  c9_write_on_empty_history _ 3 7 rfl rfl rfl rfl (by decide)

/-- C10: `RollbackFrames::new` clamps the stored frame count to at most 60,
so `history_size` always lies in `2..=62`; every capacity derived from it
therefore satisfies the `1..=64` bound of `SparseBlobDeque::new`, whose
panic (`none`) is unreachable from this path. -/
theorem c10_rollback_frames_capacity_safe (f : Nat) :
    2 ≤ (RollbackFrames.new f).history_size ∧
    (RollbackFrames.new f).history_size ≤ 62 ∧
    (@SparseBlobDeque.new Unit (RollbackFrames.new f).history_size).isSome := by
  have hs : (RollbackFrames.new f).history_size = rmin f 60 + 2 := rfl
  have h1 : rmin f 60 ≤ 60 := rmin_le_right f 60
  rw [hs]
  refine ⟨by omega, by omega, ?_⟩
  unfold SparseBlobDeque.new
  rw [if_pos (by constructor <;> omega)]
  rfl

/-- C5: for every `SparseBlobDeque` reachable from the constructor through
the mutating operations (`append`, `extend_front`, `extend_back`,
`trim_back`, `replace`, `clear`), the number of set presence bits within the
live range `0..len` equals the number of items physically stored in the
inner ring buffer. -/
theorem c5_reachable_popcount_eq_stored {V : Type} (s : SparseBlobDeque V)
    (h : s.Reach) :
    countOnes (s.mask &&& ((1 <<< s.len) - 1)) = s.stored_items := by
  obtain ⟨hm, hcnt, -, -, -, -, -⟩ := SparseBlobDeque.wf_of_reach h
  rw [Nat.one_shiftLeft, and_two_pow_sub_one, Nat.mod_eq_of_lt hm]
  exact hcnt

/-- C5 witness: after appending one present value to a fresh capacity-5
deque, the in-range popcount of the mask equals the stored-item count. -/
theorem c5_witness :
    countOnes (((SparseBlobDeque.fresh 5 : SparseBlobDeque Nat).append (some 3)).mask &&&
        ((1 <<< ((SparseBlobDeque.fresh 5 : SparseBlobDeque Nat).append (some 3)).len) - 1)) =
      ((SparseBlobDeque.fresh 5 : SparseBlobDeque Nat).append (some 3)).stored_items :=
  c5_reachable_popcount_eq_stored _
    (SparseBlobDeque.Reach.append _ (some 3)
      (SparseBlobDeque.Reach.new 5 (by omega) (by omega)))

/-- C4 amended: a `write` to a tick at or before `last_tick` and within
capacity of the newest tracked tick overwrites that slot's value state in
place, but it does not discard a removed marker: if the slot's removed bit
is clear, `get` afterwards returns the new value; if the removed bit is set,
the marker persists and `get` still returns `Removed` (the stored value is
shadowed). -/
theorem c4_write_in_window_amended {V : Type} (h : ComponentHistory V)
    (tick : Nat) (v : V) (hr : h.list.Reach) (hlen : h.list.len ≠ 0)
    (htick : tick ≤ h.last_tick)
    (hwin : h.last_tick - tick < h.list.capacity) :
    (h.write tick v).get tick =
      if h.removed_mask &&& (1 <<< (h.last_tick - tick)) ≠ 0 then
        TickData.Removed
      else TickData.Value v := by
  have hwf := SparseBlobDeque.wf_of_reach hr
  have hc64 : h.list.capacity ≤ 64 := hwf.2.2.2.1
  have hcap : ¬ h.list.capacity ≤ h.last_tick - tick := by omega
  rw [ComponentHistory.write_spec_in_window h tick v hlen htick hcap]
  by_cases hext : h.list.len ≤ h.last_tick - tick
  · rw [if_pos hext]
    have hwfE := SparseBlobDeque.wf_extend_front h.list
      (h.last_tick - tick - (h.list.len - 1)) hwf
    have hmod256 : (h.last_tick - tick - (h.list.len - 1)) % 256 =
        h.last_tick - tick - (h.list.len - 1) := Nat.mod_eq_of_lt (by omega)
    have hrmin : rmin ((h.last_tick - tick - (h.list.len - 1)) % 256)
        (h.list.capacity - h.list.len) = h.last_tick - tick - (h.list.len - 1) := by
      rw [hmod256]
      exact rmin_eq_left (by omega)
    have hElen : (h.list.extend_front (h.last_tick - tick - (h.list.len - 1))).len =
        h.last_tick - tick + 1 := by
      show h.list.len + rmin ((h.last_tick - tick - (h.list.len - 1)) % 256)
        (h.list.capacity - h.list.len) = h.last_tick - tick + 1
      rw [hrmin]
      omega
    generalize hE : h.list.extend_front (h.last_tick - tick - (h.list.len - 1)) = E
      at hwfE hElen ⊢
    by_cases hrem : h.removed_mask &&& (1 <<< (h.last_tick - tick)) ≠ 0
    · rw [if_pos hrem]
      simp only [ComponentHistory.get]
      rw [if_neg (show ¬ h.last_tick < tick by omega),
        if_neg (show ¬ (E.replace (E.len - 1 - (h.last_tick - tick)) v).len ≤
          h.last_tick - tick by rw [SparseBlobDeque.replace_len]; omega),
        if_pos hrem]
    · rw [if_neg hrem]
      simp only [ComponentHistory.get]
      rw [if_neg (show ¬ h.last_tick < tick by omega),
        if_neg (show ¬ (E.replace (E.len - 1 - (h.last_tick - tick)) v).len ≤
          h.last_tick - tick by rw [SparseBlobDeque.replace_len]; omega),
        if_neg hrem]
      rw [SparseBlobDeque.replace_len]
      rw [SparseBlobDeque.get_replace_self E (E.len - 1 - (h.last_tick - tick)) v
        hwfE (by omega)]
  · rw [if_neg hext]
    by_cases hrem : h.removed_mask &&& (1 <<< (h.last_tick - tick)) ≠ 0
    · rw [if_pos hrem]
      simp only [ComponentHistory.get]
      rw [if_neg (show ¬ h.last_tick < tick by omega),
        if_neg (show ¬ (h.list.replace (h.list.len - 1 - (h.last_tick - tick)) v).len ≤
          h.last_tick - tick by rw [SparseBlobDeque.replace_len]; omega),
        if_pos hrem]
    · rw [if_neg hrem]
      simp only [ComponentHistory.get]
      rw [if_neg (show ¬ h.last_tick < tick by omega),
        if_neg (show ¬ (h.list.replace (h.list.len - 1 - (h.last_tick - tick)) v).len ≤
          h.last_tick - tick by rw [SparseBlobDeque.replace_len]; omega),
        if_neg hrem]
      rw [SparseBlobDeque.replace_len]
      rw [SparseBlobDeque.get_replace_self h.list
        (h.list.len - 1 - (h.last_tick - tick)) v hwf (by omega)]

/-- C4 witness: on a fresh capacity-5 history holding tick 3, rewriting tick 3
(whose removed bit is clear) makes `get 3` return the new value. -/
theorem c4_witness :
    (((ComponentHistory.fresh 5 : ComponentHistory Nat).write 3 9).write 3 7).get 3 =
      TickData.Value 7 := by
  have hl : ((ComponentHistory.fresh 5 : ComponentHistory Nat).write 3 9).list =
      (SparseBlobDeque.fresh 5 : SparseBlobDeque Nat).append (some 9) := by decide
  have h4 := c4_write_in_window_amended
    ((ComponentHistory.fresh 5 : ComponentHistory Nat).write 3 9) 3 7
    (by rw [hl]
        exact SparseBlobDeque.Reach.append _ (some 9)
          (SparseBlobDeque.Reach.new 5 (by omega) (by omega)))
    (by decide) (by decide) (by decide)
  rw [h4]
  decide

/-- C1: writing a set of pairs with distinct ticks whose span fits in one
retention window into a fresh history, in any permutation `P` of the
tick-sorted order `S`, converges to the same observable history as writing
them in increasing tick order: same logical length, same `last_tick`, and the
same `get` result at every tick. -/
theorem c1_out_of_order_convergence {V : Type} (cap : Nat)
    (S P : List (Nat × V))
    (hsorted : List.Pairwise (fun a b : Nat × V => a.1 < b.1) S)
    (hperm : P.Perm S) (hne : S ≠ [])
    (hspan : lastTick S - firstTick S < cap)
    (hcap1 : 1 ≤ cap) (hcap64 : cap ≤ 64) :
    (writeAll (ComponentHistory.fresh cap) P).len =
      (writeAll (ComponentHistory.fresh cap) S).len ∧
    (writeAll (ComponentHistory.fresh cap) P).last_tick =
      (writeAll (ComponentHistory.fresh cap) S).last_tick ∧
    ∀ tick, (writeAll (ComponentHistory.fresh cap) P).get tick =
      (writeAll (ComponentHistory.fresh cap) S).get tick := by
  have h1 := canon_run hsorted hne hspan hcap1 hcap64 P hperm
  have h2 := canon_run hsorted hne hspan hcap1 hcap64 S (List.Perm.refl S)
  refine ⟨?_, ?_, ?_⟩
  · show (writeAll (ComponentHistory.fresh cap) P).list.len =
      (writeAll (ComponentHistory.fresh cap) S).list.len
    rw [h1.hlen, h2.hlen]
  · rw [h1.hlast, h2.hlast]
  · intro tick
    rw [get_eq_getObs, get_eq_getObs, h1.hlast, h2.hlast, h1.hlen, h2.hlen,
      h1.hrm, h2.hrm, h1.hmask, h2.hmask, h1.hdata, h2.hdata, h1.hilen,
      h2.hilen]

/-- C1 witness: writing the pairs (1, 10), (3, 30) into a fresh capacity-5
history in reversed order agrees with increasing order on length, last tick,
and the lookup at tick 2. -/
theorem c1_witness :
    (writeAll (ComponentHistory.fresh 5 : ComponentHistory Nat)
        [(3, 30), (1, 10)]).len =
      (writeAll (ComponentHistory.fresh 5 : ComponentHistory Nat)
        [(1, 10), (3, 30)]).len ∧
    (writeAll (ComponentHistory.fresh 5 : ComponentHistory Nat)
        [(3, 30), (1, 10)]).last_tick =
      (writeAll (ComponentHistory.fresh 5 : ComponentHistory Nat)
        [(1, 10), (3, 30)]).last_tick ∧
    (writeAll (ComponentHistory.fresh 5 : ComponentHistory Nat)
        [(3, 30), (1, 10)]).get 2 =
      (writeAll (ComponentHistory.fresh 5 : ComponentHistory Nat)
        [(1, 10), (3, 30)]).get 2 := by
  have h := c1_out_of_order_convergence 5 [(1, 10), (3, 30)] [(3, 30), (1, 10)]
    (by decide) (by decide) (by decide) (by decide) (by decide) (by decide)
  exact ⟨h.1, h.2.1, h.2.2 2⟩

/-- C2: writing a strictly increasing sequence of (tick, value) pairs whose
span fits in one retention window into a fresh history makes `get` return
`Value v` at every written tick, and `Missing` at every unwritten tick
(within the span or not). -/
theorem c2_round_trip {V : Type} (cap : Nat) (S : List (Nat × V))
    (hsorted : List.Pairwise (fun a b : Nat × V => a.1 < b.1) S) (hne : S ≠ [])
    (hspan : lastTick S - firstTick S < cap) (hcap1 : 1 ≤ cap)
    (hcap64 : cap ≤ 64) :
    (∀ p ∈ S, (writeAll (ComponentHistory.fresh cap) S).get p.1 =
      TickData.Value p.2) ∧
    (∀ tick, tick ∉ S.map Prod.fst →
      (writeAll (ComponentHistory.fresh cap) S).get tick = TickData.Missing) := by
  have hc := canon_run hsorted hne hspan hcap1 hcap64 S (List.Perm.refl S)
  exact ⟨fun p hp => canon_get_value hc hp,
    fun tick ht => canon_get_missing hc ht⟩

/-- C2 witness: after writing ticks 1 and 3 in increasing order into a fresh
capacity-5 history, tick 3 reads back its value and the skipped tick 2 reads
`Missing`. -/
theorem c2_witness :
    (writeAll (ComponentHistory.fresh 5 : ComponentHistory Nat)
        [(1, 10), (3, 30)]).get 3 = TickData.Value 30 ∧
    (writeAll (ComponentHistory.fresh 5 : ComponentHistory Nat)
        [(1, 10), (3, 30)]).get 2 = TickData.Missing := by
  have h := c2_round_trip 5 [(1, 10), (3, 30)] (by decide) (by decide)
    (by decide) (by decide) (by decide)
  exact ⟨h.1 (3, 30) (by decide), h.2 2 (by decide)⟩

end BevyRewind
